import Mathlib

/-!
Verification development for the expression DSL and size-bounded enumerator
of `src/synthesis/search.py`, and for the reference reimbursement formula of
`src/legacy_reimburse.py`.

Numbers: the Python code computes with `int` and `float`; the embedding uses
`ℤ` for integer quantities and `ℚ` for real-valued quantities (the exact
decimal values the source literals denote).  Fallible evaluation is embedded
as `Except`.
-/

/-! ## DSL definition constants (search.py lines 9-24) -/

def CONST_VALUES : List ℤ :=
  [0, 1, 2, 3, 4, 5, 10, 15, 20, 25,
   50, 75, 100, 120, 150, 180, 200, 250, 300, 400, 500, 600, 800, 1000]

def VAR_NAMES : List String := ["d", "m", "r"]

def MULTIPLIERS : List ℚ := [0.01, 0.1, 0.25, 0.4, 0.58, 0.8, 1.05]

def ROUND_P : List ℤ := [0, 2]

/-- Comparison operators mapping (`COMP_OPS` in search.py). -/
def COMP_OPS : List (String × (ℚ → ℚ → Bool)) :=
  [("<", fun a b => decide (a < b)),
   ("<=", fun a b => decide (a ≤ b)),
   (">", fun a b => decide (a > b)),
   (">=", fun a b => decide (a ≥ b)),
   ("==", fun a b => decide (a = b))]

/-! ## AST node classes (search.py lines 27-133) -/

/-- The `Expr` AST of search.py: `Const`, `Var`, `Binary`, `Scale`, `Round`.
Operator fields are strings, exactly as in the source (`op: str`); the values
held by `Const` nodes are the integers of the constant pool. -/
inductive Expr : Type
  | const (value : ℤ)
  | var (name : String)
  | binary (op : String) (left right : Expr)
  | scale (op : String) (expr : Expr) (k : ℚ)
  | round (expr : Expr) (p : ℤ)
  deriving DecidableEq

/-- Evaluation environment: Python `Dict[str, float]`, embedded as a partial
map from names to numbers. -/
def Env : Type := String → Option ℚ

/-- Error conditions evaluation can raise.  `unboundVariable` is the spec's
`UnboundVariable` (Python `KeyError` on the environment dict); `unknownOp` is
the `ValueError("Unknown op ...")` branch of `Binary.eval`; `zeroDivision` is
Python's `ZeroDivisionError` from `val / self.k` with a zero factor;
`unknownCompOp` is the `KeyError` on the `COMP_OPS` dict in `Pred.eval`. -/
inductive EvalErr : Type
  | unboundVariable (name : String)
  | unknownOp (op : String)
  | zeroDivision
  | unknownCompOp (op : String)
  deriving DecidableEq

/-- Round-half-to-even to an integer, the convention of Python `round`. -/
def rhe (q : ℚ) : ℤ :=
  let f := ⌊q⌋
  if q - f < 1 / 2 then f
  else if 1 / 2 < q - f then f + 1
  else if f % 2 = 0 then f else f + 1

/-- Python `round(x, p)`: round half to even at `p` decimal places. -/
def roundPy (q : ℚ) (p : ℤ) : ℚ :=
  (rhe (q * 10 ^ p) : ℚ) / 10 ^ p

/-- `eval` of each `Expr` node class.  `Binary.eval` evaluates both children
before dispatching on the operator; `Scale.eval` multiplies for `'*'` and
divides otherwise (a zero factor raises); `Round.eval` applies `round`. -/
def Expr.eval : Expr → Env → Except EvalErr ℚ
  | .const v, _ => .ok (v : ℚ)
  | .var n, env =>
    match env n with
    | some x => .ok x
    | none => .error (.unboundVariable n)
  | .binary op l r, env =>
    match Expr.eval l env with
    | .error e => .error e
    | .ok lv =>
      match Expr.eval r env with
      | .error e => .error e
      | .ok rv =>
        if op = "+" then .ok (lv + rv)
        else if op = "-" then .ok (lv - rv)
        else if op = "max" then .ok (max lv rv)
        else if op = "min" then .ok (min lv rv)
        else .error (.unknownOp op)
  | .scale op e k, env =>
    match Expr.eval e env with
    | .error err => .error err
    | .ok v =>
      if op = "*" then .ok (v * k)
      else if k = 0 then .error .zeroDivision
      else .ok (v / k)
  | .round e p, env =>
    match Expr.eval e env with
    | .error err => .error err
    | .ok v => .ok (roundPy v p)

/-- `size` of each node class: leaves count 1, `Binary` is
`1 + left.size() + right.size()`, `Scale`/`Round` are `1 + expr.size()`. -/
def Expr.size : Expr → ℕ
  | .const _ => 1
  | .var _ => 1
  | .binary _ l r => 1 + Expr.size l + Expr.size r
  | .scale _ e _ => 1 + Expr.size e
  | .round e _ => 1 + Expr.size e

/-- Decimal rendering of a nonnegative multiple of `1/100`, matching Python
`repr` of the float multipliers in the pool (shortest decimal form, e.g.
`0.1`, `0.58`, `1.05`). -/
def pyFloatRepr (q : ℚ) : String :=
  let c : ℤ := ⌊q * 100⌋
  let ip := c / 100
  let fr := c % 100
  if fr = 0 then toString ip ++ ".0"
  else if fr % 10 = 0 then toString ip ++ "." ++ toString (fr / 10)
  else if fr < 10 then toString ip ++ ".0" ++ toString fr
  else toString ip ++ "." ++ toString fr

/-- `__str__` of each node class: the canonical string.  `Const` prints its
(integer) value, `Var` its name; `Binary` prints infix for `'+'`/`'-'` and
call style otherwise; `Scale` prints infix `*` or `/`; `Round` prints
`round(e, p)`. -/
def Expr.str : Expr → String
  | .const v => toString v
  | .var n => n
  | .binary op l r =>
    if op = "+" ∨ op = "-" then
      "(" ++ Expr.str l ++ " " ++ op ++ " " ++ Expr.str r ++ ")"
    else
      op ++ "(" ++ Expr.str l ++ ", " ++ Expr.str r ++ ")"
  | .scale op e k =>
    if op = "*" then "(" ++ Expr.str e ++ " * " ++ pyFloatRepr k ++ ")"
    else "(" ++ Expr.str e ++ " / " ++ pyFloatRepr k ++ ")"
  | .round e p => "round(" ++ Expr.str e ++ ", " ++ toString p ++ ")"

/-- Lexicographic comparison of character lists by code point: Python string
`<=`. -/
def lexLe : List Char → List Char → Bool
  | [], _ => true
  | _ :: _, [] => false
  | a :: as, b :: bs =>
    if a < b then true else if b < a then false else lexLe as bs

/-- Python `str(left) <= str(right)`. -/
def strLe (s t : String) : Bool := lexLe s.data t.data

/-- The `Pred` class (search.py lines 136-149); named `DslPred` here because
`Pred` already exists in Mathlib. -/
structure DslPred : Type where
  left : Expr
  op : String
  right : Expr

/-- `Pred.eval`: looks up the comparison operator in `COMP_OPS` (a `KeyError`
if absent, before the operands are evaluated, as in Python call-order), then
evaluates left and right and applies it. -/
def DslPred.eval (p : DslPred) (env : Env) : Except EvalErr Bool :=
  match COMP_OPS.lookup p.op with
  | none => .error (.unknownCompOp p.op)
  | some f =>
    match Expr.eval p.left env with
    | .error e => .error e
    | .ok lv =>
      match Expr.eval p.right env with
      | .error e => .error e
      | .ok rv => .ok (f lv rv)

/-! ## Enumeration utilities (search.py lines 191-263) -/

/-- `generate_terms()`: one `Var` per variable name followed by one `Const`
per constant-pool value. -/
def generate_terms : List Expr :=
  VAR_NAMES.map Expr.var ++ CONST_VALUES.map Expr.const

/-- `COMMUTATIVE_OPS` (a set in Python; membership is what matters). -/
def COMMUTATIVE_OPS : List String := ["+", "max", "min"]

/-- `should_emit_binary`: for a commutative operator keep only
`str(left) <= str(right)`. -/
def should_emit_binary (op : String) (left right : Expr) : Bool :=
  if op ∈ COMMUTATIVE_OPS then strLe (Expr.str left) (Expr.str right)
  else true

/-- The `Scale` and `Round` constructions of one size class, built over the
class of size `s - 1` (per element: `Scale` for `'*'` then `'/'` across the
multiplier pool, then `Round` across the precision pool, in source order). -/
def unary_constructions (child : List Expr) : List Expr :=
  child.flatMap fun e =>
    ((["*", "/"] : List String).flatMap fun op =>
      MULTIPLIERS.map fun k => Expr.scale op e k)
    ++ ROUND_P.map fun p => Expr.round e p

/-- The `Binary` constructions of one size class: every split
`left_size + right_size = s - 1` with both at least 1, every pair of operands
from the corresponding classes, every operator passing `should_emit_binary`. -/
def binary_constructions (s : ℕ) (memo : List (List Expr)) : List Expr :=
  (List.range' 1 (s - 2)).flatMap fun left_size =>
    (memo.getD (left_size - 1) []).flatMap fun left_expr =>
      (memo.getD (s - 1 - left_size - 1) []).flatMap fun right_expr =>
        ((["+", "-", "max", "min"] : List String).filter fun op =>
          should_emit_binary op left_expr right_expr).map fun op =>
            Expr.binary op left_expr right_expr

/-- Body of one iteration of the `for size in range(2, max_size + 1)` loop of
`enumerate_exprs`: the list `current` for size class `s`, built from `memo`,
which holds the classes for sizes `1 .. s-1` at indices `0 .. s-2`. -/
def nextClass (s : ℕ) (memo : List (List Expr)) : List Expr :=
  unary_constructions (memo.getD (s - 2) []) ++ binary_constructions s memo

/-- The `memo` table of `enumerate_exprs` after the loop has run up to size
`n`: a list whose entry at index `s - 1` is the size class `s`, for
`1 ≤ s ≤ n` (the Python dict `{1: generate_terms(), 2: ..., ...}`). -/
def memoFull : ℕ → List (List Expr)
  | 0 => []
  | 1 => [generate_terms]
  | n + 2 => memoFull (n + 1) ++ [nextClass (n + 2) (memoFull (n + 1))]

/-- `enumerate_exprs(max_size)`: run the size-class loop, then concatenate
`memo[1] .. memo[max_size]` (empty for `max_size < 1`, since the aggregation
loop `range(1, max_size + 1)` is then empty). -/
def enumerate_exprs (max_size : ℤ) : List Expr :=
  (memoFull max_size.toNat).flatten

/-! ## The reference formula (legacy_reimburse.py) -/

/-- The mileage component of `legacy_reimburse`: tiered rates over the four
mileage brackets, written exactly as the sequential tier computation in the
source (`remaining`/`mileage` updates). -/
def mileageCalc (m : ℤ) : ℚ :=
  let remaining0 : ℤ := m
  let tier1 : ℤ := min remaining0 100
  let mileage1 : ℚ := (tier1 : ℚ) * 0.58
  let remaining1 : ℤ := remaining0 - tier1
  let mileage2 : ℚ :=
    if 0 < remaining1 then mileage1 + (min remaining1 175 : ℤ) * 0.45 else mileage1
  let remaining2 : ℤ :=
    if 0 < remaining1 then remaining1 - min remaining1 175 else remaining1
  let mileage3 : ℚ :=
    if 0 < remaining2 then mileage2 + (min remaining2 641 : ℤ) * 0.30 else mileage2
  let remaining3 : ℤ :=
    if 0 < remaining2 then remaining2 - min remaining2 641 else remaining2
  if 0 < remaining3 then mileage3 + (remaining3 : ℚ) * 0.35 else mileage3

/-- `legacy_reimburse(d, m, r)`: per-diem plus tiered mileage, floored at the
receipts amount, rounded to two decimals. -/
def legacy_reimburse (d m : ℤ) (r : ℚ) : ℚ :=
  let per_diem : ℤ :=
    if d = 5 then 100 * d + 75
    else if 9 ≤ d then 90 * d
    else 100 * d
  let total : ℚ := (per_diem : ℚ) + mileageCalc m
  roundPy (max total r) 2

/-! ## Enumerator invariants -/

/-- Structural well-formedness of enumerator output: every node draws its
fields from the configured pools, and every `Binary` node satisfies the
`should_emit_binary` condition. -/
def Expr.wf : Expr → Bool
  | .const v => decide (v ∈ CONST_VALUES)
  | .var n => decide (n ∈ VAR_NAMES)
  | .binary op l r =>
    decide (op ∈ (["+", "-", "max", "min"] : List String)) &&
      should_emit_binary op l r && Expr.wf l && Expr.wf r
  | .scale op e k =>
    decide (op ∈ (["*", "/"] : List String)) && decide (k ∈ MULTIPLIERS) && Expr.wf e
  | .round e p => decide (p ∈ ROUND_P) && Expr.wf e

lemma MULTIPLIERS_repr :
    MULTIPLIERS.map pyFloatRepr =
      ["0.01", "0.1", "0.25", "0.4", "0.58", "0.8", "1.05"] := by
  have h1 : pyFloatRepr 0.01 = "0.01" := by
    simp only [pyFloatRepr]; rw [show ⌊(0.01 : ℚ) * 100⌋ = 1 from by norm_num]; decide
  have h2 : pyFloatRepr 0.1 = "0.1" := by
    simp only [pyFloatRepr]; rw [show ⌊(0.1 : ℚ) * 100⌋ = 10 from by norm_num]; decide
  have h3 : pyFloatRepr 0.25 = "0.25" := by
    simp only [pyFloatRepr]; rw [show ⌊(0.25 : ℚ) * 100⌋ = 25 from by norm_num]; decide
  have h4 : pyFloatRepr 0.4 = "0.4" := by
    simp only [pyFloatRepr]; rw [show ⌊(0.4 : ℚ) * 100⌋ = 40 from by norm_num]; decide
  have h5 : pyFloatRepr 0.58 = "0.58" := by
    simp only [pyFloatRepr]; rw [show ⌊(0.58 : ℚ) * 100⌋ = 58 from by norm_num]; decide
  have h6 : pyFloatRepr 0.8 = "0.8" := by
    simp only [pyFloatRepr]; rw [show ⌊(0.8 : ℚ) * 100⌋ = 80 from by norm_num]; decide
  have h7 : pyFloatRepr 1.05 = "1.05" := by
    simp only [pyFloatRepr]; rw [show ⌊(1.05 : ℚ) * 100⌋ = 105 from by norm_num]; decide
  simp [MULTIPLIERS, h1, h2, h3, h4, h5, h6, h7]

lemma MULTIPLIERS_nodup : MULTIPLIERS.Nodup :=
  List.Nodup.of_map pyFloatRepr (by rw [MULTIPLIERS_repr]; decide)

lemma pyFloatRepr_injOn :
    ∀ k₁ ∈ MULTIPLIERS, ∀ k₂ ∈ MULTIPLIERS, pyFloatRepr k₁ = pyFloatRepr k₂ → k₁ = k₂ :=
  fun _ h₁ _ h₂ h =>
    List.inj_on_of_nodup_map (by rw [MULTIPLIERS_repr]; decide) h₁ h₂ h

lemma memoFull_length (n : ℕ) : (memoFull n).length = n := by
  induction n with
  | zero => rfl
  | succ m ih =>
    cases m with
    | zero => rfl
    | succ k => simpa [memoFull] using ih

lemma memoFull_succ (n : ℕ) (h : 1 ≤ n) :
    memoFull (n + 1) = memoFull n ++ [nextClass (n + 1) (memoFull n)] := by
  cases n with
  | zero => omega
  | succ k => rfl

lemma memoFull_prefix (m n : ℕ) (h : m ≤ n) : ∃ t, memoFull n = memoFull m ++ t := by
  induction n with
  | zero =>
    have : m = 0 := by omega
    exact ⟨[], by simp [this]⟩
  | succ k ih =>
    rcases Nat.lt_or_ge m (k + 1) with hm | hm
    · obtain ⟨t, ht⟩ := ih (by omega)
      cases k with
      | zero =>
        have : m = 0 := by omega
        exact ⟨[generate_terms], by simp [this, memoFull]⟩
      | succ j =>
        refine ⟨t ++ [nextClass (j + 2) (memoFull (j + 1))], ?_⟩
        rw [show j + 1 + 1 = j + 2 from rfl]
        show memoFull (j + 1) ++ [nextClass (j + 2) (memoFull (j + 1))] = _
        rw [ht, List.append_assoc]
    · have : m = k + 1 := by omega
      exact ⟨[], by simp [this]⟩

lemma memoFull_getD_stable (m n i : ℕ) (him : i < m) (hmn : m ≤ n) :
    (memoFull n).getD i [] = (memoFull m).getD i [] := by
  obtain ⟨t, ht⟩ := memoFull_prefix m n hmn
  rw [ht, List.getD_append]
  rw [memoFull_length]
  exact him

/-- The invariant of one size class: every element is well-formed and has
size exactly `s`, and the class holds no duplicate expressions. -/
def classInv (s : ℕ) (c : List Expr) : Prop :=
  (∀ e ∈ c, Expr.wf e = true ∧ e.size = s) ∧ c.Nodup

lemma classInv_nil (s : ℕ) : classInv s [] :=
  ⟨fun _ h => absurd h (List.not_mem_nil _), List.nodup_nil⟩

lemma generate_terms_classInv : classInv 1 generate_terms := by
  constructor
  · decide
  · decide

lemma mem_unary {child : List Expr} {x : Expr} (hx : x ∈ unary_constructions child) :
    ∃ e ∈ child,
      (∃ op ∈ (["*", "/"] : List String), ∃ k ∈ MULTIPLIERS, x = Expr.scale op e k) ∨
      (∃ p ∈ ROUND_P, x = Expr.round e p) := by
  simp only [unary_constructions, List.mem_flatMap, List.mem_append, List.mem_map] at hx
  obtain ⟨e, he, h⟩ := hx
  rcases h with h | h
  · obtain ⟨op, hop, k, hk, rfl⟩ := h
    exact ⟨e, he, .inl ⟨op, hop, k, hk, rfl⟩⟩
  · obtain ⟨p, hp, rfl⟩ := h
    exact ⟨e, he, .inr ⟨p, hp, rfl⟩⟩

lemma mem_binary {s : ℕ} {memo : List (List Expr)} {x : Expr}
    (hx : x ∈ binary_constructions s memo) :
    ∃ ls, (1 ≤ ls ∧ ls < 1 + (s - 2)) ∧
      ∃ l ∈ memo.getD (ls - 1) [], ∃ r ∈ memo.getD (s - 1 - ls - 1) [],
        ∃ op ∈ (["+", "-", "max", "min"] : List String),
          should_emit_binary op l r = true ∧ x = Expr.binary op l r := by
  simp only [binary_constructions, List.mem_flatMap, List.mem_filter, List.mem_map,
    List.mem_range'_1] at hx
  obtain ⟨ls, hls, l, hl, r, hr, op, ⟨hop, hemit⟩, rfl⟩ := hx
  exact ⟨ls, hls, l, hl, r, hr, op, hop, hemit, rfl⟩

lemma nextClass_prop (s : ℕ) (memo : List (List Expr)) (hs : 2 ≤ s)
    (h : ∀ i, classInv (i + 1) (memo.getD i [])) :
    ∀ x ∈ nextClass s memo, Expr.wf x = true ∧ x.size = s := by
  intro x hx
  rcases List.mem_append.1 hx with hx | hx
  · obtain ⟨e, he, hcase⟩ := mem_unary hx
    have hinv := (h (s - 2)).1 e he
    have hsz : e.size = s - 2 + 1 := hinv.2
    rcases hcase with ⟨op, hop, k, hk, rfl⟩ | ⟨p, hp, rfl⟩
    · refine ⟨?_, ?_⟩
      · simp only [Expr.wf, Bool.and_eq_true, decide_eq_true_eq]
        exact ⟨⟨hop, hk⟩, hinv.1⟩
      · simp only [Expr.size]; omega
    · refine ⟨?_, ?_⟩
      · simp only [Expr.wf, Bool.and_eq_true, decide_eq_true_eq]
        exact ⟨hp, hinv.1⟩
      · simp only [Expr.size]; omega
  · obtain ⟨ls, ⟨hls1, hls2⟩, l, hl, r, hr, op, hop, hemit, rfl⟩ := mem_binary hx
    have hl' := (h (ls - 1)).1 l hl
    have hr' := (h (s - 1 - ls - 1)).1 r hr
    refine ⟨?_, ?_⟩
    · simp only [Expr.wf, Bool.and_eq_true, decide_eq_true_eq]
      exact ⟨⟨⟨hop, hemit⟩, hl'.1⟩, hr'.1⟩
    · have h1 := hl'.2
      have h2 := hr'.2
      simp only [Expr.size]; omega

lemma unary_inner_shape (a x : Expr)
    (hx : x ∈ ((["*", "/"] : List String).flatMap fun op =>
        MULTIPLIERS.map fun k => Expr.scale op a k)
      ++ ROUND_P.map fun p => Expr.round a p) :
    (∃ op k, x = Expr.scale op a k) ∨ ∃ p, x = Expr.round a p := by
  rcases List.mem_append.1 hx with hx | hx
  · obtain ⟨op, _, hx⟩ := List.mem_flatMap.1 hx
    obtain ⟨k, _, rfl⟩ := List.mem_map.1 hx
    exact .inl ⟨op, k, rfl⟩
  · obtain ⟨p, _, rfl⟩ := List.mem_map.1 hx
    exact .inr ⟨p, rfl⟩

lemma unary_nodup (child : List Expr) (h : child.Nodup) :
    (unary_constructions child).Nodup := by
  unfold unary_constructions
  rw [List.nodup_flatMap]
  constructor
  · intro e _
    refine List.Nodup.append ?_ ?_ ?_
    · rw [List.nodup_flatMap]
      refine ⟨?_, ?_⟩
      · intro op _
        exact MULTIPLIERS_nodup.map fun k₁ k₂ hk => by injection hk
      · refine List.Pairwise.cons ?_ (List.Pairwise.cons ?_ List.Pairwise.nil)
        · intro b hb
          have hb' : b = "/" := by simpa using hb
          subst hb'
          intro x hx₁ hx₂
          obtain ⟨k₁, _, rfl⟩ := List.mem_map.1 hx₁
          obtain ⟨k₂, _, hk⟩ := List.mem_map.1 hx₂
          injection hk with hop _ _
          exact absurd hop (by decide)
        · intro b hb
          exact absurd hb (List.not_mem_nil b)
    · exact (show ROUND_P.Nodup by decide).map fun p₁ p₂ hp => by injection hp
    · intro x hx₁ hx₂
      obtain ⟨op, _, hx₁⟩ := List.mem_flatMap.1 hx₁
      obtain ⟨k, _, rfl⟩ := List.mem_map.1 hx₁
      obtain ⟨p, _, hp⟩ := List.mem_map.1 hx₂
      exact Expr.noConfusion hp
  · refine h.imp ?_
    intro a b hab x hxa hxb
    rcases unary_inner_shape a x hxa with ⟨op, k, rfl⟩ | ⟨p, rfl⟩ <;>
      rcases unary_inner_shape b _ hxb with ⟨op', k', he⟩ | ⟨p', he⟩
    · injection he with _ hEq _
      exact hab hEq
    · exact Expr.noConfusion he
    · exact Expr.noConfusion he
    · injection he with hEq _
      exact hab hEq

lemma binary_nodup (s : ℕ) (memo : List (List Expr))
    (h : ∀ i, classInv (i + 1) (memo.getD i [])) :
    (binary_constructions s memo).Nodup := by
  unfold binary_constructions
  rw [List.nodup_flatMap]
  constructor
  · intro ls _
    rw [List.nodup_flatMap]
    constructor
    · intro l _
      rw [List.nodup_flatMap]
      constructor
      · intro r _
        refine List.Nodup.map_on ?_
          (List.Nodup.filter _ (by decide : (["+", "-", "max", "min"] : List String).Nodup))
        intro o _ o' _ heq
        injection heq
      · refine ((h (s - 1 - ls - 1)).2).imp ?_
        intro r₁ r₂ hne x hx₁ hx₂
        obtain ⟨o₁, _, rfl⟩ := List.mem_map.1 hx₁
        obtain ⟨o₂, _, heq⟩ := List.mem_map.1 hx₂
        injection heq with _ _ hR
        exact hne hR.symm
    · refine ((h (ls - 1)).2).imp ?_
      intro l₁ l₂ hne x hx₁ hx₂
      obtain ⟨r₁, _, hx₁⟩ := List.mem_flatMap.1 hx₁
      obtain ⟨o₁, _, rfl⟩ := List.mem_map.1 hx₁
      obtain ⟨r₂, _, hx₂⟩ := List.mem_flatMap.1 hx₂
      obtain ⟨o₂, _, heq⟩ := List.mem_map.1 hx₂
      injection heq with _ hL _
      exact hne hL.symm
  · refine List.Pairwise.imp_of_mem ?_ (List.nodup_range' 1 (s - 2))
    intro ls₁ ls₂ h₁ h₂ hne x hx₁ hx₂
    have m₁ := (List.mem_range'_1.1 h₁).1
    have m₂ := (List.mem_range'_1.1 h₂).1
    obtain ⟨l₁, hl₁, hx₁⟩ := List.mem_flatMap.1 hx₁
    obtain ⟨r₁, _, hx₁⟩ := List.mem_flatMap.1 hx₁
    obtain ⟨o₁, _, rfl⟩ := List.mem_map.1 hx₁
    obtain ⟨l₂, hl₂, hx₂⟩ := List.mem_flatMap.1 hx₂
    obtain ⟨r₂, _, hx₂⟩ := List.mem_flatMap.1 hx₂
    obtain ⟨o₂, _, heq⟩ := List.mem_map.1 hx₂
    injection heq with _ hL _
    have s₁ := ((h (ls₁ - 1)).1 l₁ hl₁).2
    have s₂ := ((h (ls₂ - 1)).1 l₂ hl₂).2
    rw [hL] at s₂
    rw [s₁] at s₂
    exact hne (by omega)

lemma nextClass_classInv (s : ℕ) (memo : List (List Expr)) (hs : 2 ≤ s)
    (h : ∀ i, classInv (i + 1) (memo.getD i [])) :
    classInv s (nextClass s memo) := by
  refine ⟨nextClass_prop s memo hs h, ?_⟩
  unfold nextClass
  refine List.Nodup.append (unary_nodup _ (h (s - 2)).2) (binary_nodup s memo h) ?_
  intro x hx₁ hx₂
  obtain ⟨e, _, hcase⟩ := mem_unary hx₁
  obtain ⟨ls, _, l, _, r, _, op, _, _, rfl⟩ := mem_binary hx₂
  rcases hcase with ⟨op', _, k, _, he⟩ | ⟨p, _, he⟩ <;> exact Expr.noConfusion he

lemma memoFull_classInv (n : ℕ) : ∀ i, classInv (i + 1) ((memoFull n).getD i []) := by
  induction n with
  | zero =>
    intro i
    show classInv (i + 1) (([] : List (List Expr)).getD i [])
    simp only [List.getD]
    exact classInv_nil _
  | succ k ih =>
    intro i
    cases k with
    | zero =>
      cases i with
      | zero => exact generate_terms_classInv
      | succ j =>
        show classInv (j + 2) ([generate_terms].getD (j + 1) [])
        rw [List.getD_eq_default _ _ (by simp)]
        exact classInv_nil _
    | succ j =>
      have hlen : (memoFull (j + 1)).length = j + 1 := memoFull_length _
      have heq : memoFull (j + 1 + 1) =
          memoFull (j + 1) ++ [nextClass (j + 2) (memoFull (j + 1))] := rfl
      rcases Nat.lt_trichotomy i (j + 1) with hi | hi | hi
      · rw [heq, List.getD_append _ _ _ _ (by omega)]
        exact ih i
      · subst hi
        rw [heq, List.getD_append_right _ _ _ _ (by omega), hlen, Nat.sub_self]
        exact nextClass_classInv (j + 2) (memoFull (j + 1)) (by omega) ih
      · rw [heq, List.getD_eq_default _ _ (by simp [hlen]; omega)]
        exact classInv_nil _

lemma mem_enumerate {N : ℤ} {e : Expr} (h : e ∈ enumerate_exprs N) :
    ∃ i, i < N.toNat ∧ e ∈ (memoFull N.toNat).getD i [] := by
  unfold enumerate_exprs at h
  obtain ⟨c, hc, he⟩ := List.mem_flatten.1 h
  obtain ⟨i, hi, hcg⟩ := List.mem_iff_getElem.1 hc
  refine ⟨i, ?_, ?_⟩
  · rw [memoFull_length] at hi
    exact hi
  · rw [List.getD_eq_getElem _ _ hi, hcg]
    exact he

lemma enumerate_wf {N : ℤ} {e : Expr} (h : e ∈ enumerate_exprs N) :
    Expr.wf e = true := by
  obtain ⟨i, _, hmem⟩ := mem_enumerate h
  exact ((memoFull_classInv N.toNat i).1 e hmem).1

lemma classMem_enumerate {n i : ℕ} {e : Expr} (hi : i < n)
    (h : e ∈ (memoFull n).getD i []) : e ∈ enumerate_exprs n := by
  unfold enumerate_exprs
  rw [Int.toNat_natCast]
  refine List.mem_flatten.2 ⟨(memoFull n).getD i [], ?_, h⟩
  have hi' : i < (memoFull n).length := by rw [memoFull_length]; exact hi
  rw [List.getD_eq_getElem _ _ hi']
  exact List.getElem_mem hi'

lemma lexLe_antisymm : ∀ a b : List Char, lexLe a b = true → lexLe b a = true → a = b := by
  intro a
  induction a with
  | nil =>
    intro b _ h₂
    cases b with
    | nil => rfl
    | cons d ds => simp [lexLe] at h₂
  | cons c cs ih =>
    intro b h₁ h₂
    cases b with
    | nil => simp [lexLe] at h₁
    | cons d ds =>
      simp only [lexLe] at h₁ h₂
      rcases lt_trichotomy c d with h | h | h
      · rw [if_neg (asymm h), if_pos h] at h₂
        exact absurd h₂ (by simp)
      · subst h
        rw [if_neg (lt_irrefl c), if_neg (lt_irrefl c)] at h₁ h₂
        rw [ih ds h₁ h₂]
      · rw [if_neg (asymm h), if_pos h] at h₁
        exact absurd h₁ (by simp)

lemma strLe_antisymm {s t : String} (h₁ : strLe s t = true) (h₂ : strLe t s = true) :
    s = t :=
  String.ext (lexLe_antisymm _ _ h₁ h₂)

/-- C1: a commutative `Binary(op, left, right)` appears in `enumerate_exprs(N)`
only when `str(left) <= str(right)`; consequently if both `Binary(op, A, B)`
and `Binary(op, B, A)` appear, the canonical strings of `A` and `B` coincide.
-/
theorem commutative_skip (N : ℤ) (op : String) (A B : Expr)
    (hop : op ∈ COMMUTATIVE_OPS)
    (h : Expr.binary op A B ∈ enumerate_exprs N) :
    strLe (Expr.str A) (Expr.str B) = true ∧
      (Expr.binary op B A ∈ enumerate_exprs N → Expr.str A = Expr.str B) := by
  have key : ∀ X Y : Expr, Expr.binary op X Y ∈ enumerate_exprs N →
      strLe (Expr.str X) (Expr.str Y) = true := by
    intro X Y hXY
    have hwf := enumerate_wf hXY
    simp only [Expr.wf, Bool.and_eq_true] at hwf
    have hemit := hwf.1.1.2
    rw [should_emit_binary, if_pos hop] at hemit
    exact hemit
  refine ⟨key A B h, fun h' => strLe_antisymm (key A B h) (key B A h')⟩

lemma memoFull_two_getD_zero : (memoFull 2).getD 0 [] = generate_terms := by
  rw [show memoFull 2 = memoFull 1 ++ [nextClass 2 (memoFull 1)] from rfl,
    List.getD_append _ _ _ _ (by rw [memoFull_length]; omega)]
  rfl

lemma plus_d_m_mem : Expr.binary "+" (Expr.var "d") (Expr.var "m") ∈ enumerate_exprs 3 := by
  have h32 : (memoFull 3).getD 2 [] = nextClass 3 (memoFull 2) := by
    rw [show memoFull 3 = memoFull 2 ++ [nextClass 3 (memoFull 2)] from rfl,
      List.getD_append_right _ _ _ _ (by rw [memoFull_length]),
      memoFull_length, Nat.sub_self]
    rfl
  refine classMem_enumerate (n := 3) (i := 2) (by omega) ?_
  rw [h32]
  refine List.mem_append_right _ ?_
  unfold binary_constructions
  refine List.mem_flatMap.2 ⟨1, by decide, ?_⟩
  refine List.mem_flatMap.2 ⟨Expr.var "d", ?_, ?_⟩
  · rw [show (1 : ℕ) - 1 = 0 from rfl, memoFull_two_getD_zero]
    decide
  · refine List.mem_flatMap.2 ⟨Expr.var "m", ?_, ?_⟩
    · rw [show (3 : ℕ) - 1 - 1 - 1 = 0 from rfl, memoFull_two_getD_zero]
      decide
    · refine List.mem_map.2 ⟨"+", ?_, rfl⟩
      decide

theorem commutative_skip_witness :
    strLe (Expr.str (Expr.var "d")) (Expr.str (Expr.var "m")) = true ∧
      (Expr.binary "+" (Expr.var "m") (Expr.var "d") ∈ enumerate_exprs 3 →
        Expr.str (Expr.var "d") = Expr.str (Expr.var "m")) :=
  commutative_skip 3 "+" (Expr.var "d") (Expr.var "m") (by decide) plus_d_m_mem

/-- C2: for `1 ≤ s ≤ N`, every expression placed in the per-size table entry
`memo[s]` (index `s - 1` of the memo built up to `N`) has `size()` exactly
`s`. -/
theorem size_class_invariant (N s : ℕ) (h1 : 1 ≤ s) (h2 : s ≤ N) :
    ∀ e ∈ (memoFull N).getD (s - 1) [], e.size = s := by
  intro e he
  have h := ((memoFull_classInv N (s - 1)).1 e he).2
  omega

theorem size_class_invariant_witness :
    1 ≤ 1 ∧ 1 ≤ 1 ∧ (Expr.var "d").size = 1 :=
  ⟨le_refl 1, le_refl 1,
    size_class_invariant 1 1 (le_refl 1) (le_refl 1) (Expr.var "d") (by decide)⟩

/-- C4: for size bounds `N1 < N2`, every expression of `enumerate_exprs(N1)`
also appears in `enumerate_exprs(N2)` (hence with the same canonical
string). -/
theorem enumerate_monotone (N₁ N₂ : ℤ) (h : N₁ < N₂) (e : Expr)
    (he : e ∈ enumerate_exprs N₁) : e ∈ enumerate_exprs N₂ := by
  unfold enumerate_exprs at he ⊢
  obtain ⟨t, ht⟩ := memoFull_prefix N₁.toNat N₂.toNat (by omega)
  rw [ht, List.flatten_append]
  exact List.mem_append_left _ he

theorem enumerate_monotone_witness :
    (1 : ℤ) < 2 ∧ Expr.var "d" ∈ enumerate_exprs 2 :=
  ⟨by decide, enumerate_monotone 1 2 (by decide) _ (by decide)⟩

/-- C5: `size` satisfies the structural definition (leaves are 1, `Binary` is
1 plus both children, `Scale`/`Round` are 1 plus the operand) and is always a
positive integer. -/
theorem size_structural :
    (∀ v, (Expr.const v).size = 1) ∧ (∀ n, (Expr.var n).size = 1) ∧
    (∀ op l r, (Expr.binary op l r).size = 1 + l.size + r.size) ∧
    (∀ op e k, (Expr.scale op e k).size = 1 + e.size) ∧
    (∀ e p, (Expr.round e p).size = 1 + e.size) ∧
    (∀ e : Expr, 0 < e.size) := by
  refine ⟨fun _ => rfl, fun _ => rfl, fun _ _ _ => rfl, fun _ _ _ => rfl,
    fun _ _ => rfl, ?_⟩
  intro e
  induction e <;> (simp only [Expr.size]; omega)

/-- C6: for `N < 1` the enumerator returns the empty list; for `N = 1` it
returns exactly one `Var` per configured variable name followed by one
`Const` per configured constant value, in that fixed order. -/
theorem enumerate_edge :
    (∀ N : ℤ, N < 1 → enumerate_exprs N = []) ∧
      enumerate_exprs 1 = VAR_NAMES.map Expr.var ++ CONST_VALUES.map Expr.const := by
  constructor
  · intro N hN
    unfold enumerate_exprs
    rw [show N.toNat = 0 by omega]
    rfl
  · rfl

theorem enumerate_edge_witness : enumerate_exprs (-3) = [] :=
  enumerate_edge.1 (-3) (by decide)

/-! ## Evaluation: totality, unbound variables, unreachable error branches -/

/-- The variable names referenced by an expression. -/
def Expr.varsOf : Expr → List String
  | .const _ => []
  | .var n => [n]
  | .binary _ l r => Expr.varsOf l ++ Expr.varsOf r
  | .scale _ e _ => Expr.varsOf e
  | .round e _ => Expr.varsOf e

/-- Evaluation well-formedness (the spec's "well-formed expressions"): every
`Binary` operator is one of the four known ones, and every dividing `Scale`
node has a non-zero factor. -/
def Expr.evalWF : Expr → Bool
  | .const _ => true
  | .var _ => true
  | .binary op l r =>
    decide (op ∈ (["+", "-", "max", "min"] : List String)) &&
      Expr.evalWF l && Expr.evalWF r
  | .scale op e k =>
    (decide (op = "*") || decide (k ≠ 0)) && Expr.evalWF e
  | .round e _ => Expr.evalWF e

lemma eval_ok_of_bound (e : Expr) (env : Env) (hwf : e.evalWF = true)
    (hb : ∀ n ∈ e.varsOf, (env n).isSome) : ∃ v, e.eval env = .ok v := by
  induction e with
  | const v => exact ⟨(v : ℚ), rfl⟩
  | var n =>
    have hs := hb n (by simp [Expr.varsOf])
    cases hn : env n with
    | none => rw [hn] at hs; simp at hs
    | some x => exact ⟨x, by simp [Expr.eval, hn]⟩
  | binary op l r ihl ihr =>
    simp only [Expr.evalWF, Bool.and_eq_true, decide_eq_true_eq] at hwf
    obtain ⟨⟨hop, hl⟩, hr⟩ := hwf
    obtain ⟨lv, hlv⟩ := ihl hl fun n hn =>
      hb n (by simp only [Expr.varsOf, List.mem_append]; exact .inl hn)
    obtain ⟨rv, hrv⟩ := ihr hr fun n hn =>
      hb n (by simp only [Expr.varsOf, List.mem_append]; exact .inr hn)
    rcases (by simpa using hop : op = "+" ∨ op = "-" ∨ op = "max" ∨ op = "min")
      with rfl | rfl | rfl | rfl
    · exact ⟨lv + rv, by simp [Expr.eval, hlv, hrv]⟩
    · exact ⟨lv - rv, by simp [Expr.eval, hlv, hrv]⟩
    · exact ⟨max lv rv, by simp [Expr.eval, hlv, hrv]⟩
    · exact ⟨min lv rv, by simp [Expr.eval, hlv, hrv]⟩
  | scale op e k ih =>
    simp only [Expr.evalWF, Bool.and_eq_true, Bool.or_eq_true, decide_eq_true_eq] at hwf
    obtain ⟨hop, he⟩ := hwf
    obtain ⟨v, hv⟩ := ih he fun n hn => hb n (by simpa [Expr.varsOf] using hn)
    by_cases h' : op = "*"
    · exact ⟨v * k, by simp [Expr.eval, hv, h']⟩
    · rcases hop with hop | hk
      · exact absurd hop h'
      · exact ⟨v / k, by simp [Expr.eval, hv, h', hk]⟩
  | round e p ih =>
    obtain ⟨v, hv⟩ := ih hwf fun n hn => hb n (by simpa [Expr.varsOf] using hn)
    exact ⟨roundPy v p, by simp [Expr.eval, hv]⟩

lemma eval_unbound (e : Expr) (env : Env) (hwf : e.evalWF = true)
    (hub : ∃ n ∈ e.varsOf, env n = none) :
    ∃ n, env n = none ∧ e.eval env = .error (.unboundVariable n) := by
  induction e with
  | const v => simp [Expr.varsOf] at hub
  | var n =>
    obtain ⟨n', hn', hnone⟩ := hub
    simp only [Expr.varsOf, List.mem_singleton] at hn'
    subst hn'
    exact ⟨n', hnone, by simp [Expr.eval, hnone]⟩
  | binary op l r ihl ihr =>
    simp only [Expr.evalWF, Bool.and_eq_true, decide_eq_true_eq] at hwf
    obtain ⟨⟨_, hwl⟩, hwr⟩ := hwf
    by_cases hl : ∃ n ∈ l.varsOf, env n = none
    · obtain ⟨n, hn, herr⟩ := ihl hwl hl
      exact ⟨n, hn, by simp [Expr.eval, herr]⟩
    · have hbl : ∀ n ∈ l.varsOf, (env n).isSome := by
        intro n hn
        cases h : env n with
        | none => exact absurd ⟨n, hn, h⟩ hl
        | some x => rfl
      obtain ⟨lv, hlv⟩ := eval_ok_of_bound l env hwl hbl
      have hub_r : ∃ n ∈ r.varsOf, env n = none := by
        obtain ⟨n, hn, hnone⟩ := hub
        rcases List.mem_append.1 (by simpa [Expr.varsOf] using hn) with h | h
        · exact absurd ⟨n, h, hnone⟩ hl
        · exact ⟨n, h, hnone⟩
      obtain ⟨n, hn, herr⟩ := ihr hwr hub_r
      exact ⟨n, hn, by simp [Expr.eval, hlv, herr]⟩
  | scale op e k ih =>
    simp only [Expr.evalWF, Bool.and_eq_true] at hwf
    obtain ⟨n, hn, herr⟩ := ih hwf.2 (by simpa [Expr.varsOf] using hub)
    exact ⟨n, hn, by simp [Expr.eval, herr]⟩
  | round e p ih =>
    obtain ⟨n, hn, herr⟩ := ih hwf (by simpa [Expr.varsOf] using hub)
    exact ⟨n, hn, by simp [Expr.eval, herr]⟩

/-- Evaluation well-formedness for predicates: the comparison operator is a
key of `COMP_OPS` and both operands are well-formed. -/
def DslPred.evalWF (p : DslPred) : Bool :=
  (COMP_OPS.lookup p.op).isSome && Expr.evalWF p.left && Expr.evalWF p.right

/-- C7 (as amended): for well-formed expressions, evaluation succeeds exactly
when every referenced variable is bound, and otherwise fails with an
`UnboundVariable` condition naming an absent variable; and the same holds for
predicate evaluation over its two operand expressions. -/
theorem eval_unbound_characterization :
    (∀ (e : Expr) (env : Env), e.evalWF = true →
      ((∀ n ∈ e.varsOf, (env n).isSome) → ∃ v, e.eval env = .ok v) ∧
      ((∃ n ∈ e.varsOf, env n = none) →
        ∃ n, env n = none ∧ e.eval env = .error (.unboundVariable n))) ∧
    (∀ (p : DslPred) (env : Env), p.evalWF = true →
      ((∀ n ∈ p.left.varsOf ++ p.right.varsOf, (env n).isSome) →
        ∃ b, p.eval env = .ok b) ∧
      ((∃ n ∈ p.left.varsOf ++ p.right.varsOf, env n = none) →
        ∃ n, env n = none ∧ p.eval env = .error (.unboundVariable n))) := by
  constructor
  · intro e env hwf
    exact ⟨eval_ok_of_bound e env hwf, eval_unbound e env hwf⟩
  · intro p env hwf
    simp only [DslPred.evalWF, Bool.and_eq_true, Option.isSome_iff_exists] at hwf
    obtain ⟨⟨⟨f, hf⟩, hwl⟩, hwr⟩ := hwf
    constructor
    · intro hb
      obtain ⟨lv, hlv⟩ := eval_ok_of_bound p.left env hwl fun n hn =>
        hb n (List.mem_append_left _ hn)
      obtain ⟨rv, hrv⟩ := eval_ok_of_bound p.right env hwr fun n hn =>
        hb n (List.mem_append_right _ hn)
      exact ⟨f lv rv, by simp [DslPred.eval, hf, hlv, hrv]⟩
    · intro hub
      by_cases hl : ∃ n ∈ p.left.varsOf, env n = none
      · obtain ⟨n, hn, herr⟩ := eval_unbound p.left env hwl hl
        exact ⟨n, hn, by simp [DslPred.eval, hf, herr]⟩
      · have hbl : ∀ n ∈ p.left.varsOf, (env n).isSome := by
          intro n hn
          cases h : env n with
          | none => exact absurd ⟨n, hn, h⟩ hl
          | some x => rfl
        obtain ⟨lv, hlv⟩ := eval_ok_of_bound p.left env hwl hbl
        have hub_r : ∃ n ∈ p.right.varsOf, env n = none := by
          obtain ⟨n, hn, hnone⟩ := hub
          rcases List.mem_append.1 hn with h | h
          · exact absurd ⟨n, h, hnone⟩ hl
          · exact ⟨n, h, hnone⟩
        obtain ⟨n, hn, herr⟩ := eval_unbound p.right env hwr hub_r
        exact ⟨n, hn, by simp [DslPred.eval, hf, hlv, herr]⟩

theorem eval_unbound_characterization_witness :
    ∃ v, Expr.eval (Expr.binary "+" (Expr.var "d") (Expr.var "m"))
      (fun _ => some 7) = .ok v :=
  (eval_unbound_characterization.1 (Expr.binary "+" (Expr.var "d") (Expr.var "m"))
    (fun _ => some 7) (by decide)).1 (fun n _ => rfl)

/-- C7 counterexample: for the (ill-formed) expression `Binary("?", 0, 0)`
every referenced variable is bound (there are none), yet evaluation does not
succeed — it raises the unknown-operator error — so the claim as stated over
every `Expr` is false. -/
theorem eval_totality_counterexample :
    (∀ n ∈ (Expr.binary "?" (Expr.const 0) (Expr.const 0)).varsOf,
      (((fun _ => none) : Env) n).isSome) ∧
    ∀ v, Expr.eval (Expr.binary "?" (Expr.const 0) (Expr.const 0))
      ((fun _ => none) : Env) ≠ .ok v := by
  constructor
  · intro n hn
    simp [Expr.varsOf] at hn
  · intro v h
    have heq : Expr.eval (Expr.binary "?" (Expr.const 0) (Expr.const 0))
        ((fun _ => none) : Env) = .error (.unknownOp "?") := by
      simp [Expr.eval]
    rw [heq] at h
    exact Except.noConfusion h

/-! ## Division safety and unreachable operator errors -/

/-- Every `Scale` factor in the expression is drawn from the multiplier
pool. -/
def Expr.scaleFromPool : Expr → Bool
  | .const _ => true
  | .var _ => true
  | .binary _ l r => Expr.scaleFromPool l && Expr.scaleFromPool r
  | .scale _ e k => decide (k ∈ MULTIPLIERS) && Expr.scaleFromPool e
  | .round e _ => Expr.scaleFromPool e

/-- Every `Binary` operator in the expression is one of the four known
ones. -/
def Expr.binOpsValid : Expr → Bool
  | .const _ => true
  | .var _ => true
  | .binary op l r =>
    decide (op ∈ (["+", "-", "max", "min"] : List String)) &&
      Expr.binOpsValid l && Expr.binOpsValid r
  | .scale _ e _ => Expr.binOpsValid e
  | .round e _ => Expr.binOpsValid e

lemma wf_scaleFromPool {e : Expr} (h : Expr.wf e = true) :
    Expr.scaleFromPool e = true := by
  induction e with
  | const v => rfl
  | var n => rfl
  | binary op l r ihl ihr =>
    simp only [Expr.wf, Bool.and_eq_true] at h
    simp only [Expr.scaleFromPool, Bool.and_eq_true]
    exact ⟨ihl h.1.2, ihr h.2⟩
  | scale op e k ih =>
    simp only [Expr.wf, Bool.and_eq_true] at h
    simp only [Expr.scaleFromPool, Bool.and_eq_true]
    exact ⟨h.1.2, ih h.2⟩
  | round e p ih =>
    simp only [Expr.wf, Bool.and_eq_true] at h
    exact ih h.2

lemma wf_binOpsValid {e : Expr} (h : Expr.wf e = true) :
    Expr.binOpsValid e = true := by
  induction e with
  | const v => rfl
  | var n => rfl
  | binary op l r ihl ihr =>
    simp only [Expr.wf, Bool.and_eq_true] at h
    simp only [Expr.binOpsValid, Bool.and_eq_true]
    exact ⟨⟨h.1.1.1, ihl h.1.2⟩, ihr h.2⟩
  | scale op e k ih =>
    simp only [Expr.wf, Bool.and_eq_true] at h
    exact ih h.2
  | round e p ih =>
    simp only [Expr.wf, Bool.and_eq_true] at h
    exact ih h.2

lemma zero_not_mem_MULTIPLIERS : (0 : ℚ) ∉ MULTIPLIERS := by
  intro h
  have hmem : pyFloatRepr 0 ∈ MULTIPLIERS.map pyFloatRepr :=
    List.mem_map_of_mem _ h
  rw [MULTIPLIERS_repr] at hmem
  have h0 : pyFloatRepr 0 = "0.0" := by
    simp only [pyFloatRepr]
    rw [show ⌊(0 : ℚ) * 100⌋ = 0 from by norm_num]
    decide
  rw [h0] at hmem
  exact absurd hmem (by decide)

lemma no_zero_division {e : Expr} (h : Expr.scaleFromPool e = true) (env : Env) :
    e.eval env ≠ .error .zeroDivision := by
  induction e with
  | const v => simp [Expr.eval]
  | var n =>
    cases hn : env n <;> simp [Expr.eval, hn]
  | binary op l r ihl ihr =>
    simp only [Expr.scaleFromPool, Bool.and_eq_true] at h
    cases hl : l.eval env with
    | error e' =>
      have : e' ≠ EvalErr.zeroDivision := fun hz => (ihl h.1) (hz ▸ hl)
      simp [Expr.eval, hl, this]
    | ok lv =>
      cases hr : r.eval env with
      | error e' =>
        have : e' ≠ EvalErr.zeroDivision := fun hz => (ihr h.2) (hz ▸ hr)
        simp [Expr.eval, hl, hr, this]
      | ok rv =>
        simp only [Expr.eval, hl, hr]
        split_ifs <;> simp
  | scale op e k ih =>
    simp only [Expr.scaleFromPool, Bool.and_eq_true, decide_eq_true_eq] at h
    cases he : e.eval env with
    | error e' =>
      have : e' ≠ EvalErr.zeroDivision := fun hz => (ih h.2) (hz ▸ he)
      simp [Expr.eval, he, this]
    | ok v =>
      have hk : k ≠ 0 := fun h0 => zero_not_mem_MULTIPLIERS (h0 ▸ h.1)
      by_cases hop : op = "*"
      · simp [Expr.eval, he, hop]
      · simp [Expr.eval, he, hop, hk]
  | round e p ih =>
    cases he : e.eval env with
    | error e' =>
      have : e' ≠ EvalErr.zeroDivision := fun hz => (ih h) (hz ▸ he)
      simp [Expr.eval, he, this]
    | ok v => simp [Expr.eval, he]

lemma no_unknown_op {e : Expr} (h : Expr.binOpsValid e = true) (env : Env)
    (s : String) : e.eval env ≠ .error (.unknownOp s) := by
  induction e with
  | const v => simp [Expr.eval]
  | var n =>
    cases hn : env n <;> simp [Expr.eval, hn]
  | binary op l r ihl ihr =>
    simp only [Expr.binOpsValid, Bool.and_eq_true, decide_eq_true_eq] at h
    cases hl : l.eval env with
    | error e' =>
      have : e' ≠ EvalErr.unknownOp s := fun hz => (ihl h.1.2) (hz ▸ hl)
      simp [Expr.eval, hl, this]
    | ok lv =>
      cases hr : r.eval env with
      | error e' =>
        have : e' ≠ EvalErr.unknownOp s := fun hz => (ihr h.2) (hz ▸ hr)
        simp [Expr.eval, hl, hr, this]
      | ok rv =>
        rcases (by simpa using h.1.1 : op = "+" ∨ op = "-" ∨ op = "max" ∨ op = "min")
          with rfl | rfl | rfl | rfl <;> simp [Expr.eval, hl, hr]
  | scale op e k ih =>
    simp only [Expr.binOpsValid] at h
    cases he : e.eval env with
    | error e' =>
      have : e' ≠ EvalErr.unknownOp s := fun hz => (ih h) (hz ▸ he)
      simp [Expr.eval, he, this]
    | ok v =>
      simp only [Expr.eval, he]
      split_ifs <;> simp
  | round e p ih =>
    cases he : e.eval env with
    | error e' =>
      have : e' ≠ EvalErr.unknownOp s := fun hz => (ih h) (hz ▸ he)
      simp [Expr.eval, he, this]
    | ok v => simp [Expr.eval, he]

/-- C8: the multiplier pool contains no zero, every `Scale` node of every
enumerated expression draws its factor from that pool, and evaluating an
enumerated expression never raises a division-by-zero. -/
theorem division_safety :
    (0 : ℚ) ∉ MULTIPLIERS ∧
    ∀ (N : ℤ) (e : Expr), e ∈ enumerate_exprs N →
      Expr.scaleFromPool e = true ∧
        ∀ env : Env, e.eval env ≠ .error .zeroDivision := by
  refine ⟨zero_not_mem_MULTIPLIERS, ?_⟩
  intro N e he
  have hwf := enumerate_wf he
  have hpool := wf_scaleFromPool hwf
  exact ⟨hpool, fun env => no_zero_division hpool env⟩

theorem division_safety_witness :
    Expr.scaleFromPool (Expr.var "d") = true ∧
      ∀ env : Env, (Expr.var "d").eval env ≠ .error .zeroDivision :=
  division_safety.2 1 (Expr.var "d") (by decide)

/-- C9: every `Binary` node of every enumerated expression carries one of the
four known operators, so evaluation of an enumerated expression never
reaches the `ValueError("Unknown op")` branch. -/
theorem unknown_op_unreachable :
    ∀ (N : ℤ) (e : Expr), e ∈ enumerate_exprs N →
      Expr.binOpsValid e = true ∧
        ∀ (env : Env) (s : String), e.eval env ≠ .error (.unknownOp s) := by
  intro N e he
  have hwf := enumerate_wf he
  have hops := wf_binOpsValid hwf
  exact ⟨hops, fun env s => no_unknown_op hops env s⟩

theorem unknown_op_unreachable_witness :
    Expr.binOpsValid (Expr.var "m") = true ∧
      ∀ (env : Env) (s : String),
        (Expr.var "m").eval env ≠ .error (.unknownOp s) :=
  unknown_op_unreachable 1 (Expr.var "m") (by decide)

/-! ## Monotonicity of the reference formula in miles traveled -/

lemma rhe_ge_floor (q : ℚ) : ⌊q⌋ ≤ rhe q := by
  simp only [rhe]
  split_ifs <;> omega

lemma rhe_le_floor_add_one (q : ℚ) : rhe q ≤ ⌊q⌋ + 1 := by
  simp only [rhe]
  split_ifs <;> omega

lemma rhe_mono {a b : ℚ} (h : a ≤ b) : rhe a ≤ rhe b := by
  rcases eq_or_lt_of_le (Int.floor_le_floor h) with heq | hlt
  · simp only [rhe]
    rw [← heq]
    split_ifs <;> first | omega | linarith
  · calc rhe a ≤ ⌊a⌋ + 1 := rhe_le_floor_add_one a
      _ ≤ ⌊b⌋ := by omega
      _ ≤ rhe b := rhe_ge_floor b

lemma roundPy_two_mono {a b : ℚ} (h : a ≤ b) : roundPy a 2 ≤ roundPy b 2 := by
  unfold roundPy
  have h100 : (0 : ℚ) < 10 ^ (2 : ℤ) := by positivity
  rw [div_le_div_right h100]
  exact_mod_cast rhe_mono (mul_le_mul_of_nonneg_right h (le_of_lt h100))

lemma mileageCalc_eq (m : ℤ) :
    mileageCalc m =
      ((min m 100 : ℤ) : ℚ) * 0.58 + ((min (max (m - 100) 0) 175 : ℤ) : ℚ) * 0.45 +
        ((min (max (m - 275) 0) 641 : ℤ) : ℚ) * 0.30 + ((max (m - 916) 0 : ℤ) : ℚ) * 0.35 := by
  simp only [mileageCalc]
  split_ifs with h1 h2 h3
  · -- 0 < r1, 0 < r2, 0 < r3 : m > 916
    have e1 : min m 100 = 100 := by omega
    rw [e1] at h2 h3 ⊢
    have e2 : min (m - 100) 175 = 175 := by omega
    rw [e2] at h3 ⊢
    have e3 : min (m - 100 - 175) 641 = 641 := by omega
    rw [e3]
    have f2 : min (max (m - 100) 0) 175 = 175 := by omega
    have f3 : min (max (m - 275) 0) 641 = 641 := by omega
    have f4 : max (m - 916) 0 = m - 916 := by omega
    rw [f2, f3, f4]
    push_cast
    ring
  · -- 0 < r1, 0 < r2, ¬0 < r3 : 275 < m ≤ 916
    have e1 : min m 100 = 100 := by omega
    rw [e1] at h2 h3 ⊢
    have e2 : min (m - 100) 175 = 175 := by omega
    rw [e2] at h3 ⊢
    have e3 : min (m - 100 - 175) 641 = m - 275 := by omega
    rw [e3]
    have f2 : min (max (m - 100) 0) 175 = 175 := by omega
    have f3 : min (max (m - 275) 0) 641 = m - 275 := by omega
    have f4 : max (m - 916) 0 = 0 := by omega
    rw [f2, f3, f4]
    push_cast
    ring
  · -- 0 < r1, ¬0 < r2 : 100 < m ≤ 275
    have e1 : min m 100 = 100 := by omega
    rw [e1] at h2 ⊢
    have e2 : min (m - 100) 175 = m - 100 := by omega
    rw [e2]
    have f2 : min (max (m - 100) 0) 175 = m - 100 := by omega
    have f3 : min (max (m - 275) 0) 641 = 0 := by omega
    have f4 : max (m - 916) 0 = 0 := by omega
    rw [f2, f3, f4]
    push_cast
    ring
  · -- ¬0 < r1 : m ≤ 100
    have e1 : min m 100 = m := by omega
    rw [e1]
    have f2 : min (max (m - 100) 0) 175 = 0 := by omega
    have f3 : min (max (m - 275) 0) 641 = 0 := by omega
    have f4 : max (m - 916) 0 = 0 := by omega
    rw [f2, f3, f4]
    push_cast
    ring

lemma mileageCalc_mono {m₁ m₂ : ℤ} (h : m₁ ≤ m₂) :
    mileageCalc m₁ ≤ mileageCalc m₂ := by
  rw [mileageCalc_eq, mileageCalc_eq]
  have t1 : ((min m₁ 100 : ℤ) : ℚ) ≤ ((min m₂ 100 : ℤ) : ℚ) := by
    exact_mod_cast show min m₁ 100 ≤ min m₂ 100 by omega
  have t2 : ((min (max (m₁ - 100) 0) 175 : ℤ) : ℚ) ≤ ((min (max (m₂ - 100) 0) 175 : ℤ) : ℚ) := by
    exact_mod_cast show min (max (m₁ - 100) 0) 175 ≤ min (max (m₂ - 100) 0) 175 by omega
  have t3 : ((min (max (m₁ - 275) 0) 641 : ℤ) : ℚ) ≤ ((min (max (m₂ - 275) 0) 641 : ℤ) : ℚ) := by
    exact_mod_cast show min (max (m₁ - 275) 0) 641 ≤ min (max (m₂ - 275) 0) 641 by omega
  have t4 : ((max (m₁ - 916) 0 : ℤ) : ℚ) ≤ ((max (m₂ - 916) 0 : ℤ) : ℚ) := by
    exact_mod_cast show max (m₁ - 916) 0 ≤ max (m₂ - 916) 0 by omega
  have c1 := mul_le_mul_of_nonneg_right t1 (show (0 : ℚ) ≤ 0.58 by norm_num)
  have c2 := mul_le_mul_of_nonneg_right t2 (show (0 : ℚ) ≤ 0.45 by norm_num)
  have c3 := mul_le_mul_of_nonneg_right t3 (show (0 : ℚ) ≤ 0.30 by norm_num)
  have c4 := mul_le_mul_of_nonneg_right t4 (show (0 : ℚ) ≤ 0.35 by norm_num)
  linarith

/-- C10: the four mileage tier rates are positive, and for every fixed trip
duration `d` and receipts amount `r`, `legacy_reimburse(d, m, r)` is monotone
nondecreasing in the miles traveled `m` over `m ≥ 0` (the max with `r` and
the 2-decimal rounding both preserve the ordering). -/
theorem legacy_reimburse_monotone :
    ((0 : ℚ) < 0.58 ∧ (0 : ℚ) < 0.45 ∧ (0 : ℚ) < 0.30 ∧ (0 : ℚ) < 0.35) ∧
    ∀ (d : ℤ) (r : ℚ) (m₁ m₂ : ℤ), 0 ≤ m₁ → m₁ ≤ m₂ →
      legacy_reimburse d m₁ r ≤ legacy_reimburse d m₂ r := by
  refine ⟨by norm_num, ?_⟩
  intro d r m₁ m₂ _ h12
  simp only [legacy_reimburse]
  exact roundPy_two_mono
    (max_le_max (add_le_add_left (mileageCalc_mono h12) _) (le_refl r))

theorem legacy_reimburse_monotone_witness :
    (0 : ℤ) ≤ 0 ∧ (0 : ℤ) ≤ 50 ∧ legacy_reimburse 1 0 0 ≤ legacy_reimburse 1 50 0 :=
  ⟨le_refl 0, by norm_num,
    legacy_reimburse_monotone.2 1 0 0 50 (le_refl 0) (by norm_num)⟩

/-! ## Deduplication: no two enumerated expressions share a canonical string -/

lemma enumerate_nodup (N : ℤ) : (enumerate_exprs N).Nodup := by
  unfold enumerate_exprs
  rw [List.nodup_flatten]
  constructor
  · intro c hc
    obtain ⟨i, hi, hg⟩ := List.mem_iff_getElem.1 hc
    have := (memoFull_classInv N.toNat i).2
    rw [List.getD_eq_getElem _ _ hi, hg] at this
    exact this
  · rw [List.pairwise_iff_getElem]
    intro i j hi hj hij
    intro x hxi hxj
    have h1 := ((memoFull_classInv N.toNat i).1 x
      (by rw [List.getD_eq_getElem _ _ hi]; exact hxi)).2
    have h2 := ((memoFull_classInv N.toNat j).1 x
      (by rw [List.getD_eq_getElem _ _ hj]; exact hxj)).2
    rw [h1] at h2
    omega

/-- Pool restriction: every node's fields are drawn from the configured
pools (the part of `Expr.wf` that canonical-string injectivity needs). -/
def Expr.poolOK : Expr → Bool
  | .const v => decide (v ∈ CONST_VALUES)
  | .var n => decide (n ∈ VAR_NAMES)
  | .binary op l r =>
    decide (op ∈ (["+", "-", "max", "min"] : List String)) &&
      Expr.poolOK l && Expr.poolOK r
  | .scale op e k =>
    decide (op ∈ (["*", "/"] : List String)) && decide (k ∈ MULTIPLIERS) &&
      Expr.poolOK e
  | .round e p => decide (p ∈ ROUND_P) && Expr.poolOK e

lemma wf_poolOK {e : Expr} (h : Expr.wf e = true) : Expr.poolOK e = true := by
  induction e with
  | const v => exact h
  | var n => exact h
  | binary op l r ihl ihr =>
    simp only [Expr.wf, Bool.and_eq_true] at h
    simp only [Expr.poolOK, Bool.and_eq_true]
    exact ⟨⟨h.1.1.1, ihl h.1.2⟩, ihr h.2⟩
  | scale op e k ih =>
    simp only [Expr.wf, Bool.and_eq_true] at h
    simp only [Expr.poolOK, Bool.and_eq_true]
    exact ⟨h.1, ih h.2⟩
  | round e p ih =>
    simp only [Expr.wf, Bool.and_eq_true] at h
    simp only [Expr.poolOK, Bool.and_eq_true]
    exact ⟨h.1, ih h.2⟩

/-- The characters of the canonical string. -/
def chars (e : Expr) : List Char := (Expr.str e).data

lemma chars_const (v : ℤ) : chars (.const v) = (toString v).data := rfl

lemma chars_var (n : String) : chars (.var n) = n.data := rfl

lemma chars_binary_plus (l r : Expr) :
    chars (.binary "+" l r) = '(' :: (chars l ++ ' ' :: '+' :: ' ' :: (chars r ++ [')'])) := by
  simp [chars, Expr.str]

lemma chars_binary_minus (l r : Expr) :
    chars (.binary "-" l r) = '(' :: (chars l ++ ' ' :: '-' :: ' ' :: (chars r ++ [')'])) := by
  simp [chars, Expr.str]

lemma chars_binary_max (l r : Expr) :
    chars (.binary "max" l r) =
      'm' :: 'a' :: 'x' :: '(' :: (chars l ++ ',' :: ' ' :: (chars r ++ [')'])) := by
  simp [chars, Expr.str]

lemma chars_binary_min (l r : Expr) :
    chars (.binary "min" l r) =
      'm' :: 'i' :: 'n' :: '(' :: (chars l ++ ',' :: ' ' :: (chars r ++ [')'])) := by
  simp [chars, Expr.str]

lemma chars_scale_mul (e : Expr) (k : ℚ) :
    chars (.scale "*" e k) =
      '(' :: (chars e ++ ' ' :: '*' :: ' ' :: ((pyFloatRepr k).data ++ [')'])) := by
  simp [chars, Expr.str]

lemma chars_scale_div (e : Expr) (k : ℚ) :
    chars (.scale "/" e k) =
      '(' :: (chars e ++ ' ' :: '/' :: ' ' :: ((pyFloatRepr k).data ++ [')'])) := by
  simp [chars, Expr.str]

lemma chars_round (e : Expr) (p : ℤ) :
    chars (.round e p) =
      'r' :: 'o' :: 'u' :: 'n' :: 'd' :: '(' ::
        (chars e ++ ',' :: ' ' :: ((toString p).data ++ [')'])) := by
  simp [chars, Expr.str]

/-- A legal continuation after a sub-rendering inside a larger rendering:
empty, or starting with a space, a closing parenthesis, or a comma. -/
def FollowOK (s : List Char) : Prop :=
  s = [] ∨ ∃ c t, s = c :: t ∧ (c = ' ' ∨ c = ')' ∨ c = ',')

lemma followOK_nil : FollowOK [] := .inl rfl

lemma followOK_space (t : List Char) : FollowOK (' ' :: t) :=
  .inr ⟨' ', t, rfl, .inl rfl⟩

lemma followOK_rparen (t : List Char) : FollowOK (')' :: t) :=
  .inr ⟨')', t, rfl, .inr (.inl rfl)⟩

lemma followOK_comma (t : List Char) : FollowOK (',' :: t) :=
  .inr ⟨',', t, rfl, .inr (.inr rfl)⟩

lemma followOK_head {c : Char} {t : List Char} (h : FollowOK (c :: t)) :
    c = ' ' ∨ c = ')' ∨ c = ',' := by
  rcases h with h | ⟨c', t', heq, hmem⟩
  · exact absurd h (by simp)
  · obtain ⟨rfl, rfl⟩ : c' = c ∧ t' = t := by
      constructor <;> [exact (List.cons.injEq .. ▸ heq).1.symm;
        exact (List.cons.injEq .. ▸ heq).2.symm]
    exact hmem

lemma const_digits {v : ℤ} (h : v ∈ CONST_VALUES) :
    (toString v).data ≠ [] ∧ ∀ c ∈ (toString v).data, c.isDigit = true := by
  have key : ∀ v ∈ CONST_VALUES,
      (toString v).data ≠ [] ∧ ∀ c ∈ (toString v).data, c.isDigit = true := by decide
  exact key v h

lemma const_inj {v₁ v₂ : ℤ} (h₁ : v₁ ∈ CONST_VALUES) (h₂ : v₂ ∈ CONST_VALUES)
    (h : toString v₁ = toString v₂) : v₁ = v₂ :=
  List.inj_on_of_nodup_map
    (by decide : (CONST_VALUES.map toString).Nodup) h₁ h₂ h

lemma mult_no_rparen {k : ℚ} (h : k ∈ MULTIPLIERS) : ')' ∉ (pyFloatRepr k).data := by
  have hm : pyFloatRepr k ∈ MULTIPLIERS.map pyFloatRepr := List.mem_map_of_mem _ h
  rw [MULTIPLIERS_repr] at hm
  have key : ∀ s ∈ (["0.01", "0.1", "0.25", "0.4", "0.58", "0.8", "1.05"] : List String),
      ')' ∉ s.data := by decide
  exact key _ hm

lemma mult_inj {k₁ k₂ : ℚ} (h₁ : k₁ ∈ MULTIPLIERS) (h₂ : k₂ ∈ MULTIPLIERS)
    (h : (pyFloatRepr k₁).data = (pyFloatRepr k₂).data) : k₁ = k₂ :=
  pyFloatRepr_injOn _ h₁ _ h₂ (String.ext h)

lemma var_pool {n : String} (h : n ∈ VAR_NAMES) : n = "d" ∨ n = "m" ∨ n = "r" := by
  simpa [VAR_NAMES] using h

lemma binop_pool {op : String} (h : op ∈ (["+", "-", "max", "min"] : List String)) :
    op = "+" ∨ op = "-" ∨ op = "max" ∨ op = "min" := by
  simpa using h

lemma scaleop_pool {op : String} (h : op ∈ (["*", "/"] : List String)) :
    op = "*" ∨ op = "/" := by
  simpa using h

lemma roundp_pool {p : ℤ} (h : p ∈ ROUND_P) : p = 0 ∨ p = 2 := by
  simpa [ROUND_P] using h

/-- Two all-digit runs followed by non-digit continuations and sharing one
character stream coincide. -/
lemma digit_run_unique :
    ∀ a : List Char, (∀ c ∈ a, c.isDigit = true) →
    ∀ b : List Char, (∀ c ∈ b, c.isDigit = true) →
    ∀ s₁ s₂ : List Char, (∀ c t, s₁ = c :: t → c.isDigit = false) →
      (∀ c t, s₂ = c :: t → c.isDigit = false) →
      a ++ s₁ = b ++ s₂ → a = b ∧ s₁ = s₂ := by
  intro a
  induction a with
  | nil =>
    intro _ b hb s₁ s₂ hs₁ hs₂ heq
    cases b with
    | nil => exact ⟨rfl, heq⟩
    | cons c cs =>
      exfalso
      have h1 : s₁ = c :: (cs ++ s₂) := heq
      have := hs₁ c _ h1
      have := hb c (by simp)
      simp_all
  | cons c cs ih =>
    intro ha b hb s₁ s₂ hs₁ hs₂ heq
    cases b with
    | nil =>
      exfalso
      have h1 : s₂ = c :: (cs ++ s₁) := heq.symm
      have := hs₂ c _ h1
      have := ha c (by simp)
      simp_all
    | cons d ds =>
      injection heq with h1 h2
      subst h1
      obtain ⟨hab, hs⟩ := ih (fun x hx => ha x (by simp [hx]))
        ds (fun x hx => hb x (by simp [hx])) s₁ s₂ hs₁ hs₂ h2
      exact ⟨by rw [hab], hs⟩

/-- Two runs containing no closing parenthesis, each terminated by a closing
parenthesis in one shared character stream, coincide. -/
lemma rparen_run_unique :
    ∀ a : List Char, ')' ∉ a → ∀ b : List Char, ')' ∉ b →
    ∀ s₁ s₂ : List Char, a ++ ')' :: s₁ = b ++ ')' :: s₂ → a = b ∧ s₁ = s₂ := by
  intro a
  induction a with
  | nil =>
    intro _ b hb s₁ s₂ heq
    cases b with
    | nil =>
      injection heq with _ h2
      exact ⟨rfl, h2⟩
    | cons d ds =>
      injection heq with h1 h2
      exact absurd (h1 ▸ List.mem_cons_self d ds) hb
  | cons c cs ih =>
    intro ha b hb s₁ s₂ heq
    cases b with
    | nil =>
      injection heq with h1 h2
      subst h1
      exact absurd (List.mem_cons_self _ _) ha
    | cons d ds =>
      injection heq with h1 h2
      subst h1
      obtain ⟨hab, hs⟩ := ih (fun hx => ha (by simp [hx])) ds
        (fun hx => hb (by simp [hx])) s₁ s₂ h2
      exact ⟨by rw [hab], hs⟩

lemma followOK_cons_elim {c : Char} {t : List Char} (h : FollowOK (c :: t))
    (hne : ¬(c = ' ' ∨ c = ')' ∨ c = ',')) : False := hne (followOK_head h)

lemma const_head {v : ℤ} (h : v ∈ CONST_VALUES) :
    ∃ c cs, (toString v).data = c :: cs ∧ c.isDigit = true := by
  obtain ⟨hne, hdig⟩ := const_digits h
  cases hcd : (toString v).data with
  | nil => exact absurd hcd hne
  | cons c cs => exact ⟨c, cs, rfl, hdig c (by rw [hcd]; simp)⟩

lemma followOK_not_digit {s : List Char} (h : FollowOK s) :
    ∀ c t, s = c :: t → c.isDigit = false := by
  intro c t hct
  subst hct
  rcases followOK_head h with rfl | rfl | rfl <;> decide

lemma round_p_zero : (toString (0 : ℤ)).data = ['0'] := by decide

lemma round_p_two : (toString (2 : ℤ)).data = ['2'] := by decide

lemma charsApp_plus (l r : Expr) (s : List Char) :
    chars (.binary "+" l r) ++ s =
      '(' :: (chars l ++ ' ' :: '+' :: ' ' :: (chars r ++ ')' :: s)) := by
  rw [chars_binary_plus]
  simp [List.append_assoc]

lemma charsApp_minus (l r : Expr) (s : List Char) :
    chars (.binary "-" l r) ++ s =
      '(' :: (chars l ++ ' ' :: '-' :: ' ' :: (chars r ++ ')' :: s)) := by
  rw [chars_binary_minus]
  simp [List.append_assoc]

lemma charsApp_max (l r : Expr) (s : List Char) :
    chars (.binary "max" l r) ++ s =
      'm' :: 'a' :: 'x' :: '(' :: (chars l ++ ',' :: ' ' :: (chars r ++ ')' :: s)) := by
  rw [chars_binary_max]
  simp [List.append_assoc]

lemma charsApp_min (l r : Expr) (s : List Char) :
    chars (.binary "min" l r) ++ s =
      'm' :: 'i' :: 'n' :: '(' :: (chars l ++ ',' :: ' ' :: (chars r ++ ')' :: s)) := by
  rw [chars_binary_min]
  simp [List.append_assoc]

lemma charsApp_mul (e : Expr) (k : ℚ) (s : List Char) :
    chars (.scale "*" e k) ++ s =
      '(' :: (chars e ++ ' ' :: '*' :: ' ' :: ((pyFloatRepr k).data ++ ')' :: s)) := by
  rw [chars_scale_mul]
  simp [List.append_assoc]

lemma charsApp_div (e : Expr) (k : ℚ) (s : List Char) :
    chars (.scale "/" e k) ++ s =
      '(' :: (chars e ++ ' ' :: '/' :: ' ' :: ((pyFloatRepr k).data ++ ')' :: s)) := by
  rw [chars_scale_div]
  simp [List.append_assoc]

lemma charsApp_round (e : Expr) (p : ℤ) (s : List Char) :
    chars (.round e p) ++ s =
      'r' :: 'o' :: 'u' :: 'n' :: 'd' :: '(' ::
        (chars e ++ ',' :: ' ' :: ((toString p).data ++ ')' :: s)) := by
  rw [chars_round]
  simp [List.append_assoc]

lemma var_d_data : ("d" : String).data = ['d'] := rfl

lemma var_m_data : ("m" : String).data = ['m'] := rfl

lemma var_r_data : ("r" : String).data = ['r'] := rfl

lemma charsApp_var_d (s : List Char) : chars (.var "d") ++ s = 'd' :: s := by
  rw [chars_var, var_d_data]; rfl

lemma charsApp_var_m (s : List Char) : chars (.var "m") ++ s = 'm' :: s := by
  rw [chars_var, var_m_data]; rfl

lemma charsApp_var_r (s : List Char) : chars (.var "r") ++ s = 'r' :: s := by
  rw [chars_var, var_r_data]; rfl

/-- Unique readability of the canonical rendering over pool-restricted
expressions: a rendering followed by a legal continuation determines both the
expression and the continuation. -/
lemma str_unique_read :
    ∀ e₁ : Expr, Expr.poolOK e₁ = true → ∀ e₂ : Expr, Expr.poolOK e₂ = true →
    ∀ s₁ s₂ : List Char, FollowOK s₁ → FollowOK s₂ →
    chars e₁ ++ s₁ = chars e₂ ++ s₂ → e₁ = e₂ ∧ s₁ = s₂ := by
  intro e₁
  induction e₁ with
  | const v =>
    intro hp₁ e₂ hp₂ s₁ s₂ hf₁ hf₂ heq
    have hv₁ : v ∈ CONST_VALUES := by simpa [Expr.poolOK] using hp₁
    obtain ⟨c, cs, hcd, hdg⟩ := const_head hv₁
    cases e₂ with
    | const w =>
      have hw : w ∈ CONST_VALUES := by simpa [Expr.poolOK] using hp₂
      rw [chars_const, chars_const] at heq
      obtain ⟨hab, hs⟩ := digit_run_unique _ (const_digits hv₁).2 _ (const_digits hw).2
        s₁ s₂ (followOK_not_digit hf₁) (followOK_not_digit hf₂) heq
      exact ⟨by rw [const_inj hv₁ hw (String.ext hab)], hs⟩
    | var m =>
      have hm : m ∈ VAR_NAMES := by simpa [Expr.poolOK] using hp₂
      rw [chars_const, hcd] at heq
      simp only [List.cons_append] at heq
      rcases var_pool hm with rfl | rfl | rfl
      · rw [charsApp_var_d] at heq
        injection heq with h1 _
        rw [h1] at hdg
        exact absurd hdg (by decide)
      · rw [charsApp_var_m] at heq
        injection heq with h1 _
        rw [h1] at hdg
        exact absurd hdg (by decide)
      · rw [charsApp_var_r] at heq
        injection heq with h1 _
        rw [h1] at hdg
        exact absurd hdg (by decide)
    | binary op₂ l₂ r₂ =>
      have hp₂' : (op₂ ∈ (["+", "-", "max", "min"] : List String) ∧
          Expr.poolOK l₂ = true) ∧ Expr.poolOK r₂ = true := by
        simpa [Expr.poolOK, Bool.and_eq_true, decide_eq_true_eq] using hp₂
      rw [chars_const, hcd] at heq
      simp only [List.cons_append] at heq
      rcases binop_pool hp₂'.1.1 with rfl | rfl | rfl | rfl
      · rw [charsApp_plus] at heq
        injection heq with h1 _
        rw [h1] at hdg
        exact absurd hdg (by decide)
      · rw [charsApp_minus] at heq
        injection heq with h1 _
        rw [h1] at hdg
        exact absurd hdg (by decide)
      · rw [charsApp_max] at heq
        injection heq with h1 _
        rw [h1] at hdg
        exact absurd hdg (by decide)
      · rw [charsApp_min] at heq
        injection heq with h1 _
        rw [h1] at hdg
        exact absurd hdg (by decide)
    | scale op₂ e₂ k₂ =>
      have hp₂' : (op₂ ∈ (["*", "/"] : List String) ∧ k₂ ∈ MULTIPLIERS) ∧
          Expr.poolOK e₂ = true := by
        simpa [Expr.poolOK, Bool.and_eq_true, decide_eq_true_eq] using hp₂
      rw [chars_const, hcd] at heq
      simp only [List.cons_append] at heq
      rcases scaleop_pool hp₂'.1.1 with rfl | rfl
      · rw [charsApp_mul] at heq
        injection heq with h1 _
        rw [h1] at hdg
        exact absurd hdg (by decide)
      · rw [charsApp_div] at heq
        injection heq with h1 _
        rw [h1] at hdg
        exact absurd hdg (by decide)
    | round e₂ p₂ =>
      rw [chars_const, hcd] at heq
      simp only [List.cons_append] at heq
      rw [charsApp_round] at heq
      injection heq with h1 _
      rw [h1] at hdg
      exact absurd hdg (by decide)
  | var n =>
    intro hp₁ e₂ hp₂ s₁ s₂ hf₁ hf₂ heq
    have hn₁ : n ∈ VAR_NAMES := by simpa [Expr.poolOK] using hp₁
    cases e₂ with
    | const w =>
      have hw : w ∈ CONST_VALUES := by simpa [Expr.poolOK] using hp₂
      obtain ⟨c, cs, hcd, hdg⟩ := const_head hw
      rw [chars_const, hcd] at heq
      simp only [List.cons_append] at heq
      rcases var_pool hn₁ with rfl | rfl | rfl
      · rw [charsApp_var_d] at heq
        injection heq with h1 _
        rw [← h1] at hdg
        exact absurd hdg (by decide)
      · rw [charsApp_var_m] at heq
        injection heq with h1 _
        rw [← h1] at hdg
        exact absurd hdg (by decide)
      · rw [charsApp_var_r] at heq
        injection heq with h1 _
        rw [← h1] at hdg
        exact absurd hdg (by decide)
    | var m =>
      have hm : m ∈ VAR_NAMES := by simpa [Expr.poolOK] using hp₂
      rcases var_pool hn₁ with rfl | rfl | rfl <;>
        rcases var_pool hm with rfl | rfl | rfl <;>
          first
          | (rw [charsApp_var_d, charsApp_var_d] at heq
             injection heq with _ h2
             exact ⟨rfl, h2⟩)
          | (rw [charsApp_var_m, charsApp_var_m] at heq
             injection heq with _ h2
             exact ⟨rfl, h2⟩)
          | (rw [charsApp_var_d, charsApp_var_m] at heq
             injection heq with h1 _
             exact absurd h1 (by decide))
          | (rw [charsApp_var_d, charsApp_var_r] at heq
             injection heq with h1 _
             exact absurd h1 (by decide))
          | (rw [charsApp_var_m, charsApp_var_d] at heq
             injection heq with h1 _
             exact absurd h1 (by decide))
          | (rw [charsApp_var_m, charsApp_var_r] at heq
             injection heq with h1 _
             exact absurd h1 (by decide))
          | (rw [charsApp_var_r, charsApp_var_d] at heq
             injection heq with h1 _
             exact absurd h1 (by decide))
          | (rw [charsApp_var_r, charsApp_var_m] at heq
             injection heq with h1 _
             exact absurd h1 (by decide))
          | (rw [charsApp_var_r, charsApp_var_r] at heq
             injection heq with _ h2
             exact ⟨rfl, h2⟩)
    | binary op₂ l₂ r₂ =>
      have hp₂' : (op₂ ∈ (["+", "-", "max", "min"] : List String) ∧
          Expr.poolOK l₂ = true) ∧ Expr.poolOK r₂ = true := by
        simpa [Expr.poolOK, Bool.and_eq_true, decide_eq_true_eq] using hp₂
      rcases binop_pool hp₂'.1.1 with rfl | rfl | rfl | rfl <;>
        rcases var_pool hn₁ with rfl | rfl | rfl <;>
          first
          | (rw [charsApp_var_d, charsApp_plus] at heq
             injection heq with h1 _
             exact absurd h1 (by decide))
          | (rw [charsApp_var_m, charsApp_plus] at heq
             injection heq with h1 _
             exact absurd h1 (by decide))
          | (rw [charsApp_var_r, charsApp_plus] at heq
             injection heq with h1 _
             exact absurd h1 (by decide))
          | (rw [charsApp_var_d, charsApp_minus] at heq
             injection heq with h1 _
             exact absurd h1 (by decide))
          | (rw [charsApp_var_m, charsApp_minus] at heq
             injection heq with h1 _
             exact absurd h1 (by decide))
          | (rw [charsApp_var_r, charsApp_minus] at heq
             injection heq with h1 _
             exact absurd h1 (by decide))
          | (rw [charsApp_var_d, charsApp_max] at heq
             injection heq with h1 _
             exact absurd h1 (by decide))
          | (rw [charsApp_var_r, charsApp_max] at heq
             injection heq with h1 _
             exact absurd h1 (by decide))
          | (rw [charsApp_var_d, charsApp_min] at heq
             injection heq with h1 _
             exact absurd h1 (by decide))
          | (rw [charsApp_var_r, charsApp_min] at heq
             injection heq with h1 _
             exact absurd h1 (by decide))
          | (rw [charsApp_var_m, charsApp_max] at heq
             injection heq with _ h2
             rw [h2] at hf₁
             exact absurd (followOK_head hf₁) (by decide))
          | (rw [charsApp_var_m, charsApp_min] at heq
             injection heq with _ h2
             rw [h2] at hf₁
             exact absurd (followOK_head hf₁) (by decide))
    | scale op₂ e₂ k₂ =>
      have hp₂' : (op₂ ∈ (["*", "/"] : List String) ∧ k₂ ∈ MULTIPLIERS) ∧
          Expr.poolOK e₂ = true := by
        simpa [Expr.poolOK, Bool.and_eq_true, decide_eq_true_eq] using hp₂
      rcases scaleop_pool hp₂'.1.1 with rfl | rfl <;>
        rcases var_pool hn₁ with rfl | rfl | rfl <;>
          first
          | (rw [charsApp_var_d, charsApp_mul] at heq
             injection heq with h1 _
             exact absurd h1 (by decide))
          | (rw [charsApp_var_m, charsApp_mul] at heq
             injection heq with h1 _
             exact absurd h1 (by decide))
          | (rw [charsApp_var_r, charsApp_mul] at heq
             injection heq with h1 _
             exact absurd h1 (by decide))
          | (rw [charsApp_var_d, charsApp_div] at heq
             injection heq with h1 _
             exact absurd h1 (by decide))
          | (rw [charsApp_var_m, charsApp_div] at heq
             injection heq with h1 _
             exact absurd h1 (by decide))
          | (rw [charsApp_var_r, charsApp_div] at heq
             injection heq with h1 _
             exact absurd h1 (by decide))
    | round e₂ p₂ =>
      rcases var_pool hn₁ with rfl | rfl | rfl
      · rw [charsApp_var_d, charsApp_round] at heq
        injection heq with h1 _
        exact absurd h1 (by decide)
      · rw [charsApp_var_m, charsApp_round] at heq
        injection heq with h1 _
        exact absurd h1 (by decide)
      · rw [charsApp_var_r, charsApp_round] at heq
        injection heq with _ h2
        rw [h2] at hf₁
        exact absurd (followOK_head hf₁) (by decide)
  | binary op l r ihl ihr =>
    intro hp₁ e₂ hp₂ s₁ s₂ hf₁ hf₂ heq
    have hp₁' : (op ∈ (["+", "-", "max", "min"] : List String) ∧
        Expr.poolOK l = true) ∧ Expr.poolOK r = true := by
      simpa [Expr.poolOK, Bool.and_eq_true, decide_eq_true_eq] using hp₁
    obtain ⟨⟨hop₁, hpl₁⟩, hpr₁⟩ := hp₁'
    cases e₂ with
    | const w =>
      have hw : w ∈ CONST_VALUES := by simpa [Expr.poolOK] using hp₂
      obtain ⟨c, cs, hcd, hdg⟩ := const_head hw
      rw [chars_const, hcd] at heq
      simp only [List.cons_append] at heq
      rcases binop_pool hop₁ with rfl | rfl | rfl | rfl
      · rw [charsApp_plus] at heq
        injection heq with h1 _
        rw [← h1] at hdg
        exact absurd hdg (by decide)
      · rw [charsApp_minus] at heq
        injection heq with h1 _
        rw [← h1] at hdg
        exact absurd hdg (by decide)
      · rw [charsApp_max] at heq
        injection heq with h1 _
        rw [← h1] at hdg
        exact absurd hdg (by decide)
      · rw [charsApp_min] at heq
        injection heq with h1 _
        rw [← h1] at hdg
        exact absurd hdg (by decide)
    | var m =>
      have hm : m ∈ VAR_NAMES := by simpa [Expr.poolOK] using hp₂
      rcases binop_pool hop₁ with rfl | rfl | rfl | rfl <;>
        rcases var_pool hm with rfl | rfl | rfl <;>
          first
          | (rw [charsApp_plus, charsApp_var_d] at heq
             injection heq with h1 _
             exact absurd h1 (by decide))
          | (rw [charsApp_plus, charsApp_var_m] at heq
             injection heq with h1 _
             exact absurd h1 (by decide))
          | (rw [charsApp_plus, charsApp_var_r] at heq
             injection heq with h1 _
             exact absurd h1 (by decide))
          | (rw [charsApp_minus, charsApp_var_d] at heq
             injection heq with h1 _
             exact absurd h1 (by decide))
          | (rw [charsApp_minus, charsApp_var_m] at heq
             injection heq with h1 _
             exact absurd h1 (by decide))
          | (rw [charsApp_minus, charsApp_var_r] at heq
             injection heq with h1 _
             exact absurd h1 (by decide))
          | (rw [charsApp_max, charsApp_var_d] at heq
             injection heq with h1 _
             exact absurd h1 (by decide))
          | (rw [charsApp_max, charsApp_var_r] at heq
             injection heq with h1 _
             exact absurd h1 (by decide))
          | (rw [charsApp_min, charsApp_var_d] at heq
             injection heq with h1 _
             exact absurd h1 (by decide))
          | (rw [charsApp_min, charsApp_var_r] at heq
             injection heq with h1 _
             exact absurd h1 (by decide))
          | (rw [charsApp_max, charsApp_var_m] at heq
             injection heq with _ h2
             rw [← h2] at hf₂
             exact absurd (followOK_head hf₂) (by decide))
          | (rw [charsApp_min, charsApp_var_m] at heq
             injection heq with _ h2
             rw [← h2] at hf₂
             exact absurd (followOK_head hf₂) (by decide))
    | binary op₂ l₂ r₂ =>
      have hp₂' : (op₂ ∈ (["+", "-", "max", "min"] : List String) ∧
          Expr.poolOK l₂ = true) ∧ Expr.poolOK r₂ = true := by
        simpa [Expr.poolOK, Bool.and_eq_true, decide_eq_true_eq] using hp₂
      obtain ⟨⟨hop₂, hpl₂⟩, hpr₂⟩ := hp₂'
      rcases binop_pool hop₁ with rfl | rfl | rfl | rfl <;>
        rcases binop_pool hop₂ with rfl | rfl | rfl | rfl
      · -- plus-plus
        rw [charsApp_plus, charsApp_plus] at heq
        injection heq with _ heq
        obtain ⟨hL, htail⟩ := ihl hpl₁ l₂ hpl₂ _ _ (followOK_space _) (followOK_space _) heq
        injection htail with _ htail
        injection htail with _ htail
        injection htail with _ htail
        obtain ⟨hR, htail⟩ := ihr hpr₁ r₂ hpr₂ _ _ (followOK_rparen _) (followOK_rparen _) htail
        injection htail with _ htail
        exact ⟨by rw [hL, hR], htail⟩
      · -- plus-minus
        rw [charsApp_plus, charsApp_minus] at heq
        injection heq with _ heq
        obtain ⟨hL, htail⟩ := ihl hpl₁ l₂ hpl₂ _ _ (followOK_space _) (followOK_space _) heq
        injection htail with _ htail
        injection htail with h2 _
        exact absurd h2 (by decide)
      · -- plus-max
        rw [charsApp_plus, charsApp_max] at heq
        injection heq with h1 _
        exact absurd h1 (by decide)
      · -- plus-min
        rw [charsApp_plus, charsApp_min] at heq
        injection heq with h1 _
        exact absurd h1 (by decide)
      · -- minus-plus
        rw [charsApp_minus, charsApp_plus] at heq
        injection heq with _ heq
        obtain ⟨hL, htail⟩ := ihl hpl₁ l₂ hpl₂ _ _ (followOK_space _) (followOK_space _) heq
        injection htail with _ htail
        injection htail with h2 _
        exact absurd h2 (by decide)
      · -- minus-minus
        rw [charsApp_minus, charsApp_minus] at heq
        injection heq with _ heq
        obtain ⟨hL, htail⟩ := ihl hpl₁ l₂ hpl₂ _ _ (followOK_space _) (followOK_space _) heq
        injection htail with _ htail
        injection htail with _ htail
        injection htail with _ htail
        obtain ⟨hR, htail⟩ := ihr hpr₁ r₂ hpr₂ _ _ (followOK_rparen _) (followOK_rparen _) htail
        injection htail with _ htail
        exact ⟨by rw [hL, hR], htail⟩
      · -- minus-max
        rw [charsApp_minus, charsApp_max] at heq
        injection heq with h1 _
        exact absurd h1 (by decide)
      · -- minus-min
        rw [charsApp_minus, charsApp_min] at heq
        injection heq with h1 _
        exact absurd h1 (by decide)
      · -- max-plus
        rw [charsApp_max, charsApp_plus] at heq
        injection heq with h1 _
        exact absurd h1 (by decide)
      · -- max-minus
        rw [charsApp_max, charsApp_minus] at heq
        injection heq with h1 _
        exact absurd h1 (by decide)
      · -- max-max
        rw [charsApp_max, charsApp_max] at heq
        injection heq with _ heq
        injection heq with _ heq
        injection heq with _ heq
        injection heq with _ heq
        obtain ⟨hL, htail⟩ := ihl hpl₁ l₂ hpl₂ _ _ (followOK_comma _) (followOK_comma _) heq
        injection htail with _ htail
        injection htail with _ htail
        obtain ⟨hR, htail⟩ := ihr hpr₁ r₂ hpr₂ _ _ (followOK_rparen _) (followOK_rparen _) htail
        injection htail with _ htail
        exact ⟨by rw [hL, hR], htail⟩
      · -- max-min
        rw [charsApp_max, charsApp_min] at heq
        injection heq with _ heq
        injection heq with h2 _
        exact absurd h2 (by decide)
      · -- min-plus
        rw [charsApp_min, charsApp_plus] at heq
        injection heq with h1 _
        exact absurd h1 (by decide)
      · -- min-minus
        rw [charsApp_min, charsApp_minus] at heq
        injection heq with h1 _
        exact absurd h1 (by decide)
      · -- min-max
        rw [charsApp_min, charsApp_max] at heq
        injection heq with _ heq
        injection heq with h2 _
        exact absurd h2 (by decide)
      · -- min-min
        rw [charsApp_min, charsApp_min] at heq
        injection heq with _ heq
        injection heq with _ heq
        injection heq with _ heq
        injection heq with _ heq
        obtain ⟨hL, htail⟩ := ihl hpl₁ l₂ hpl₂ _ _ (followOK_comma _) (followOK_comma _) heq
        injection htail with _ htail
        injection htail with _ htail
        obtain ⟨hR, htail⟩ := ihr hpr₁ r₂ hpr₂ _ _ (followOK_rparen _) (followOK_rparen _) htail
        injection htail with _ htail
        exact ⟨by rw [hL, hR], htail⟩
    | scale op₂ e₂ k₂ =>
      have hp₂' : (op₂ ∈ (["*", "/"] : List String) ∧ k₂ ∈ MULTIPLIERS) ∧
          Expr.poolOK e₂ = true := by
        simpa [Expr.poolOK, Bool.and_eq_true, decide_eq_true_eq] using hp₂
      obtain ⟨⟨hop₂, hk₂⟩, hpe₂⟩ := hp₂'
      rcases binop_pool hop₁ with rfl | rfl | rfl | rfl <;>
        rcases scaleop_pool hop₂ with rfl | rfl
      · rw [charsApp_plus, charsApp_mul] at heq
        injection heq with _ heq
        obtain ⟨hL, htail⟩ := ihl hpl₁ e₂ hpe₂ _ _ (followOK_space _) (followOK_space _) heq
        injection htail with _ htail
        injection htail with h2 _
        exact absurd h2 (by decide)
      · rw [charsApp_plus, charsApp_div] at heq
        injection heq with _ heq
        obtain ⟨hL, htail⟩ := ihl hpl₁ e₂ hpe₂ _ _ (followOK_space _) (followOK_space _) heq
        injection htail with _ htail
        injection htail with h2 _
        exact absurd h2 (by decide)
      · rw [charsApp_minus, charsApp_mul] at heq
        injection heq with _ heq
        obtain ⟨hL, htail⟩ := ihl hpl₁ e₂ hpe₂ _ _ (followOK_space _) (followOK_space _) heq
        injection htail with _ htail
        injection htail with h2 _
        exact absurd h2 (by decide)
      · rw [charsApp_minus, charsApp_div] at heq
        injection heq with _ heq
        obtain ⟨hL, htail⟩ := ihl hpl₁ e₂ hpe₂ _ _ (followOK_space _) (followOK_space _) heq
        injection htail with _ htail
        injection htail with h2 _
        exact absurd h2 (by decide)
      · rw [charsApp_max, charsApp_mul] at heq
        injection heq with h1 _
        exact absurd h1 (by decide)
      · rw [charsApp_max, charsApp_div] at heq
        injection heq with h1 _
        exact absurd h1 (by decide)
      · rw [charsApp_min, charsApp_mul] at heq
        injection heq with h1 _
        exact absurd h1 (by decide)
      · rw [charsApp_min, charsApp_div] at heq
        injection heq with h1 _
        exact absurd h1 (by decide)
    | round e₂ p₂ =>
      rcases binop_pool hop₁ with rfl | rfl | rfl | rfl
      · rw [charsApp_plus, charsApp_round] at heq
        injection heq with h1 _
        exact absurd h1 (by decide)
      · rw [charsApp_minus, charsApp_round] at heq
        injection heq with h1 _
        exact absurd h1 (by decide)
      · rw [charsApp_max, charsApp_round] at heq
        injection heq with h1 _
        exact absurd h1 (by decide)
      · rw [charsApp_min, charsApp_round] at heq
        injection heq with h1 _
        exact absurd h1 (by decide)
  | scale op e k ih =>
    intro hp₁ e₂ hp₂ s₁ s₂ hf₁ hf₂ heq
    have hp₁' : (op ∈ (["*", "/"] : List String) ∧ k ∈ MULTIPLIERS) ∧
        Expr.poolOK e = true := by
      simpa [Expr.poolOK, Bool.and_eq_true, decide_eq_true_eq] using hp₁
    obtain ⟨⟨hop₁, hk₁⟩, hpe₁⟩ := hp₁'
    cases e₂ with
    | const w =>
      have hw : w ∈ CONST_VALUES := by simpa [Expr.poolOK] using hp₂
      obtain ⟨c, cs, hcd, hdg⟩ := const_head hw
      rw [chars_const, hcd] at heq
      simp only [List.cons_append] at heq
      rcases scaleop_pool hop₁ with rfl | rfl
      · rw [charsApp_mul] at heq
        injection heq with h1 _
        rw [← h1] at hdg
        exact absurd hdg (by decide)
      · rw [charsApp_div] at heq
        injection heq with h1 _
        rw [← h1] at hdg
        exact absurd hdg (by decide)
    | var m =>
      have hm : m ∈ VAR_NAMES := by simpa [Expr.poolOK] using hp₂
      rcases scaleop_pool hop₁ with rfl | rfl <;>
        rcases var_pool hm with rfl | rfl | rfl <;>
          first
          | (rw [charsApp_mul, charsApp_var_d] at heq
             injection heq with h1 _
             exact absurd h1 (by decide))
          | (rw [charsApp_mul, charsApp_var_m] at heq
             injection heq with h1 _
             exact absurd h1 (by decide))
          | (rw [charsApp_mul, charsApp_var_r] at heq
             injection heq with h1 _
             exact absurd h1 (by decide))
          | (rw [charsApp_div, charsApp_var_d] at heq
             injection heq with h1 _
             exact absurd h1 (by decide))
          | (rw [charsApp_div, charsApp_var_m] at heq
             injection heq with h1 _
             exact absurd h1 (by decide))
          | (rw [charsApp_div, charsApp_var_r] at heq
             injection heq with h1 _
             exact absurd h1 (by decide))
    | binary op₂ l₂ r₂ =>
      have hp₂' : (op₂ ∈ (["+", "-", "max", "min"] : List String) ∧
          Expr.poolOK l₂ = true) ∧ Expr.poolOK r₂ = true := by
        simpa [Expr.poolOK, Bool.and_eq_true, decide_eq_true_eq] using hp₂
      obtain ⟨⟨hop₂, hpl₂⟩, hpr₂⟩ := hp₂'
      rcases scaleop_pool hop₁ with rfl | rfl <;>
        rcases binop_pool hop₂ with rfl | rfl | rfl | rfl
      · rw [charsApp_mul, charsApp_plus] at heq
        injection heq with _ heq
        obtain ⟨hL, htail⟩ := ih hpe₁ l₂ hpl₂ _ _ (followOK_space _) (followOK_space _) heq
        injection htail with _ htail
        injection htail with h2 _
        exact absurd h2 (by decide)
      · rw [charsApp_mul, charsApp_minus] at heq
        injection heq with _ heq
        obtain ⟨hL, htail⟩ := ih hpe₁ l₂ hpl₂ _ _ (followOK_space _) (followOK_space _) heq
        injection htail with _ htail
        injection htail with h2 _
        exact absurd h2 (by decide)
      · rw [charsApp_mul, charsApp_max] at heq
        injection heq with h1 _
        exact absurd h1 (by decide)
      · rw [charsApp_mul, charsApp_min] at heq
        injection heq with h1 _
        exact absurd h1 (by decide)
      · rw [charsApp_div, charsApp_plus] at heq
        injection heq with _ heq
        obtain ⟨hL, htail⟩ := ih hpe₁ l₂ hpl₂ _ _ (followOK_space _) (followOK_space _) heq
        injection htail with _ htail
        injection htail with h2 _
        exact absurd h2 (by decide)
      · rw [charsApp_div, charsApp_minus] at heq
        injection heq with _ heq
        obtain ⟨hL, htail⟩ := ih hpe₁ l₂ hpl₂ _ _ (followOK_space _) (followOK_space _) heq
        injection htail with _ htail
        injection htail with h2 _
        exact absurd h2 (by decide)
      · rw [charsApp_div, charsApp_max] at heq
        injection heq with h1 _
        exact absurd h1 (by decide)
      · rw [charsApp_div, charsApp_min] at heq
        injection heq with h1 _
        exact absurd h1 (by decide)
    | scale op₂ e₂ k₂ =>
      have hp₂' : (op₂ ∈ (["*", "/"] : List String) ∧ k₂ ∈ MULTIPLIERS) ∧
          Expr.poolOK e₂ = true := by
        simpa [Expr.poolOK, Bool.and_eq_true, decide_eq_true_eq] using hp₂
      obtain ⟨⟨hop₂, hk₂⟩, hpe₂⟩ := hp₂'
      rcases scaleop_pool hop₁ with rfl | rfl <;>
        rcases scaleop_pool hop₂ with rfl | rfl
      · -- mul-mul
        rw [charsApp_mul, charsApp_mul] at heq
        injection heq with _ heq
        obtain ⟨hE, htail⟩ := ih hpe₁ e₂ hpe₂ _ _ (followOK_space _) (followOK_space _) heq
        injection htail with _ htail
        injection htail with _ htail
        injection htail with _ htail
        obtain ⟨hm, hs⟩ := rparen_run_unique _ (mult_no_rparen hk₁) _ (mult_no_rparen hk₂)
          s₁ s₂ htail
        exact ⟨by rw [hE, mult_inj hk₁ hk₂ hm], hs⟩
      · -- mul-div
        rw [charsApp_mul, charsApp_div] at heq
        injection heq with _ heq
        obtain ⟨hE, htail⟩ := ih hpe₁ e₂ hpe₂ _ _ (followOK_space _) (followOK_space _) heq
        injection htail with _ htail
        injection htail with h2 _
        exact absurd h2 (by decide)
      · -- div-mul
        rw [charsApp_div, charsApp_mul] at heq
        injection heq with _ heq
        obtain ⟨hE, htail⟩ := ih hpe₁ e₂ hpe₂ _ _ (followOK_space _) (followOK_space _) heq
        injection htail with _ htail
        injection htail with h2 _
        exact absurd h2 (by decide)
      · -- div-div
        rw [charsApp_div, charsApp_div] at heq
        injection heq with _ heq
        obtain ⟨hE, htail⟩ := ih hpe₁ e₂ hpe₂ _ _ (followOK_space _) (followOK_space _) heq
        injection htail with _ htail
        injection htail with _ htail
        injection htail with _ htail
        obtain ⟨hm, hs⟩ := rparen_run_unique _ (mult_no_rparen hk₁) _ (mult_no_rparen hk₂)
          s₁ s₂ htail
        exact ⟨by rw [hE, mult_inj hk₁ hk₂ hm], hs⟩
    | round e₂ p₂ =>
      rcases scaleop_pool hop₁ with rfl | rfl
      · rw [charsApp_mul, charsApp_round] at heq
        injection heq with h1 _
        exact absurd h1 (by decide)
      · rw [charsApp_div, charsApp_round] at heq
        injection heq with h1 _
        exact absurd h1 (by decide)
  | round e p ih =>
    intro hp₁ e₂ hp₂ s₁ s₂ hf₁ hf₂ heq
    have hp₁' : p ∈ ROUND_P ∧ Expr.poolOK e = true := by
      simpa [Expr.poolOK, Bool.and_eq_true, decide_eq_true_eq] using hp₁
    obtain ⟨hpp₁, hpe₁⟩ := hp₁'
    cases e₂ with
    | const w =>
      have hw : w ∈ CONST_VALUES := by simpa [Expr.poolOK] using hp₂
      obtain ⟨c, cs, hcd, hdg⟩ := const_head hw
      rw [chars_const, hcd] at heq
      simp only [List.cons_append] at heq
      rw [charsApp_round] at heq
      injection heq with h1 _
      rw [← h1] at hdg
      exact absurd hdg (by decide)
    | var m =>
      have hm : m ∈ VAR_NAMES := by simpa [Expr.poolOK] using hp₂
      rcases var_pool hm with rfl | rfl | rfl
      · rw [charsApp_round, charsApp_var_d] at heq
        injection heq with h1 _
        exact absurd h1 (by decide)
      · rw [charsApp_round, charsApp_var_m] at heq
        injection heq with h1 _
        exact absurd h1 (by decide)
      · rw [charsApp_round, charsApp_var_r] at heq
        injection heq with _ h2
        rw [← h2] at hf₂
        exact absurd (followOK_head hf₂) (by decide)
    | binary op₂ l₂ r₂ =>
      have hp₂' : (op₂ ∈ (["+", "-", "max", "min"] : List String) ∧
          Expr.poolOK l₂ = true) ∧ Expr.poolOK r₂ = true := by
        simpa [Expr.poolOK, Bool.and_eq_true, decide_eq_true_eq] using hp₂
      rcases binop_pool hp₂'.1.1 with rfl | rfl | rfl | rfl
      · rw [charsApp_round, charsApp_plus] at heq
        injection heq with h1 _
        exact absurd h1 (by decide)
      · rw [charsApp_round, charsApp_minus] at heq
        injection heq with h1 _
        exact absurd h1 (by decide)
      · rw [charsApp_round, charsApp_max] at heq
        injection heq with h1 _
        exact absurd h1 (by decide)
      · rw [charsApp_round, charsApp_min] at heq
        injection heq with h1 _
        exact absurd h1 (by decide)
    | scale op₂ e₂ k₂ =>
      have hp₂' : (op₂ ∈ (["*", "/"] : List String) ∧ k₂ ∈ MULTIPLIERS) ∧
          Expr.poolOK e₂ = true := by
        simpa [Expr.poolOK, Bool.and_eq_true, decide_eq_true_eq] using hp₂
      rcases scaleop_pool hp₂'.1.1 with rfl | rfl
      · rw [charsApp_round, charsApp_mul] at heq
        injection heq with h1 _
        exact absurd h1 (by decide)
      · rw [charsApp_round, charsApp_div] at heq
        injection heq with h1 _
        exact absurd h1 (by decide)
    | round e₂ p₂ =>
      have hp₂' : p₂ ∈ ROUND_P ∧ Expr.poolOK e₂ = true := by
        simpa [Expr.poolOK, Bool.and_eq_true, decide_eq_true_eq] using hp₂
      obtain ⟨hpp₂, hpe₂⟩ := hp₂'
      rw [charsApp_round, charsApp_round] at heq
      injection heq with _ heq
      injection heq with _ heq
      injection heq with _ heq
      injection heq with _ heq
      injection heq with _ heq
      injection heq with _ heq
      obtain ⟨hE, htail⟩ := ih hpe₁ e₂ hpe₂ _ _ (followOK_comma _) (followOK_comma _) heq
      injection htail with _ htail
      injection htail with _ htail
      rcases roundp_pool hpp₁ with rfl | rfl <;>
        rcases roundp_pool hpp₂ with rfl | rfl
      · rw [round_p_zero] at htail
        simp only [List.singleton_append] at htail
        injection htail with _ htail
        injection htail with _ htail
        exact ⟨by rw [hE], htail⟩
      · rw [round_p_zero, round_p_two] at htail
        simp only [List.singleton_append] at htail
        injection htail with h1 _
        exact absurd h1 (by decide)
      · rw [round_p_two, round_p_zero] at htail
        simp only [List.singleton_append] at htail
        injection htail with h1 _
        exact absurd h1 (by decide)
      · rw [round_p_two] at htail
        simp only [List.singleton_append] at htail
        injection htail with _ htail
        injection htail with _ htail
        exact ⟨by rw [hE], htail⟩

/-- C3: for every size bound `N`, the canonical strings of the expressions
returned by `enumerate_exprs(N)` are pairwise distinct — the returned list
contains zero exact-string duplicates. -/
theorem canonical_string_dedup (N : ℤ) :
    ((enumerate_exprs N).map Expr.str).Nodup := by
  refine List.Nodup.map_on ?_ (enumerate_nodup N)
  intro x hx y hy hxy
  have hpx := wf_poolOK (enumerate_wf hx)
  have hpy := wf_poolOK (enumerate_wf hy)
  have heq : chars x ++ [] = chars y ++ [] := by simp [chars, hxy]
  exact (str_unique_read x hpx y hpy [] [] followOK_nil followOK_nil heq).1
